import Mathlib

/-!
Shallow embedding of `main.go` from the debateData repository.

The program parses a CSV of political debates (one row per debate, one
column group per candidate) into `Debate`/`Candidate` records and pivots
them into a summary table with a header row, one row per
(debate, candidate) pair, and a trailing "Total" row.

Go maps are embedded as association lists kept in first-insertion order;
where the source iterates a Go map (whose order is unspecified), the
iteration order is either irrelevant after sorting or is made an explicit
parameter (`parseRowWith`, `pipelineWith`) so that order-dependence can be
stated and settled.
-/

/-! ## Go string primitives -/

/-- `strings.Split(s, sep)` for a one-character separator: `n` separators
produce `n+1` pieces; the empty string yields one empty piece. -/
def splitOnChar (c : Char) : List Char → List (List Char)
  | [] => [[]]
  | x :: xs =>
    let r := splitOnChar c xs
    if x = c then [] :: r
    else
      match r with
      | [] => [[x]]
      | y :: ys => (x :: y) :: ys

/-- Whitespace as recognized by Go's `unicode.IsSpace` on the Latin-1 range
(the only characters relevant to this data set). -/
def goIsSpace (c : Char) : Bool :=
  c = ' ' || c = '\t' || c = '\n' || c = '\x0b' || c = '\x0c' || c = '\r' ||
  c = '\x85' || c = '\xa0'

/-- `strings.TrimSpace`: drop leading and trailing whitespace. -/
def trimChars (l : List Char) : List Char :=
  ((l.dropWhile goIsSpace).reverse.dropWhile goIsSpace).reverse

/-- `strings.TrimSpace` on a `String`. -/
def trimSpace (s : String) : String :=
  String.mk (trimChars s.toList)

/-- `strings.Trim(s, " ")`: drop leading and trailing space characters only. -/
def trimSpaceOnly (l : List Char) : List Char :=
  ((l.dropWhile (· = ' ')).reverse.dropWhile (· = ' ')).reverse

/-- Does `l` start with `p`? (list-level `strings.HasPrefix`). -/
def startsWithChars : List Char → List Char → Bool
  | [], _ => true
  | _ :: _, [] => false
  | p :: ps, c :: cs => p = c && startsWithChars ps cs

/-- Does `pat` occur as a contiguous substring of the second list? -/
def hasSub (pat : List Char) : List Char → Bool
  | [] => pat.isEmpty
  | c :: rest => startsWithChars pat (c :: rest) || hasSub pat rest

/-- `strings.Contains(s, "Date")`, the only containment test in the source. -/
def containsDate (s : String) : Bool :=
  hasSub "Date".toList s.toList

/-! ## Decimal integers: `strconv.Itoa` / `strconv.Atoi` -/

/-- The decimal digit character for `n % 10`. -/
def digitChar (n : Nat) : Char :=
  if n = 0 then '0' else if n = 1 then '1' else if n = 2 then '2'
  else if n = 3 then '3' else if n = 4 then '4' else if n = 5 then '5'
  else if n = 6 then '6' else if n = 7 then '7' else if n = 8 then '8'
  else '9'

/-- Decimal digits of `n`, most significant first; `[]` for `n = 0`.
`fuel` bounds the recursion; `fuel ≥ n` is always enough. -/
def natToDigitsAux : Nat → Nat → List Char
  | 0, _ => []
  | fuel + 1, n =>
    if n = 0 then []
    else natToDigitsAux fuel (n / 10) ++ [digitChar (n % 10)]

/-- Decimal digit string of a natural number (`"0"` for zero). -/
def natDigits (n : Nat) : List Char :=
  if n = 0 then ['0'] else natToDigitsAux n n

/-- `strconv.Itoa` on a non-negative value. -/
def Itoa (n : Nat) : String :=
  String.mk (natDigits n)

/-- `strconv.Itoa` on a Go `int` (embedded as `Int`). -/
def ItoaInt (i : Int) : String :=
  if i < 0 then String.mk ('-' :: natDigits i.natAbs) else Itoa i.toNat

/-- Numeric value of a digit list under `acc * 10 + digit` accumulation. -/
def digitsVal (l : List Char) : Nat :=
  l.foldl (fun a c => a * 10 + (c.toNat - 48)) 0

/-- `strconv.Atoi` on a character list: optional sign, then one or more
decimal digits; any other shape is an error (`none`). -/
def AtoiChars : List Char → Option Int
  | [] => none
  | c :: rest =>
    if c = '+' then
      if rest.isEmpty || !(rest.all Char.isDigit) then none
      else some (digitsVal rest)
    else if c = '-' then
      if rest.isEmpty || !(rest.all Char.isDigit) then none
      else some (-(digitsVal rest : Int))
    else if (c :: rest).all Char.isDigit then some (digitsVal (c :: rest))
    else none

/-- `strconv.Atoi`.  Overflow is not modeled: the integers this program
handles are bounded by the input size. -/
def Atoi (s : String) : Option Int :=
  AtoiChars s.toList

/-! ## Data model -/

/-- `type Candidate struct { Name string; IssueCount map[string]int }`.
The map is embedded as an association list in first-insertion order. -/
structure Candidate where
  Name : String
  IssueCount : List (String × Nat)
deriving DecidableEq, Repr

/-- `type Debate struct { Date string; Candidates []Candidate }`. -/
structure Debate where
  Date : String
  Candidates : List Candidate
deriving DecidableEq, Repr

/-- Go map read with the zero value for a missing key:
`candidate.IssueCount[h]`. -/
def lookupCount : List (String × Nat) → String → Nat
  | [], _ => 0
  | (k', n) :: rest, k => if k' = k then n else lookupCount rest k

/-- The increment in `parseCsvData`: first occurrence stores 1, later
occurrences add 1. -/
def incr : List (String × Nat) → String → List (String × Nat)
  | [], k => [(k, 1)]
  | (k', n) :: rest, k =>
    if k' = k then (k', n + 1) :: rest else (k', n) :: incr rest k

/-! ## sanitizeColumnName -/

/-- `regexp.MustCompile(`+"`"+`\[\d\]`+"`"+`).ReplaceAllString(val, "")`:
remove every (leftmost-first, non-overlapping) occurrence of `[d]` for a
single decimal digit `d`, anywhere in the string. -/
def removeBracketDigits : List Char → List Char
  | [] => []
  | [c] => [c]
  | [c, d] => [c, d]
  | c :: d :: e :: rest2 =>
    if c = '[' ∧ d.isDigit ∧ e = ']' then removeBracketDigits rest2
    else c :: removeBracketDigits (d :: e :: rest2)

/-- `sanitizeColumnName` from the source: regex-remove all `[d]`
occurrences, then `strings.Trim(_, " ")` (space characters only). -/
def sanitizeColumnName (s : String) : String :=
  String.mk (trimSpaceOnly (removeBracketDigits s.toList))

/-- Modelled from the spec's words (spec §4.1), for comparison with the
source's `sanitizeColumnName`: "strip any bracketed single-digit suffix
(a pattern of form `[d]` where d is one decimal digit) from the raw header
text, then trim surrounding whitespace." -/
def specSanitizeColumnName (s : String) : String :=
  let l := s.toList
  let stripped :=
    match l.reverse with
    | ']' :: d :: '[' :: rest => if d.isDigit then rest.reverse else l
    | _ => l
  String.mk (trimChars stripped)

/-! ## parseCsvData -/

/-- Result of a Go function that can return a value, return an error, or
panic with an out-of-range index. -/
inductive PResult (α : Type) where
  | ok : α → PResult α
  | err : String → PResult α
  | panicked : PResult α
deriving DecidableEq, Repr

/-- The error message of the date-cardinality check in `parseCsvData`. -/
def dupDateMsg : String :=
  "data integrity error: the source data contains more than one date column"

/-- Models `fmt.Errorf("data integrity error: %+v", err)` in `summarize`;
the wrapped `strconv` message text is abstracted to a constant. -/
def intParseMsg : String :=
  "data integrity error: invalid syntax"

/-- One step of `indexMap[sanitizedValue] = append(indexMap[sanitizedValue], k)`
on the association-list embedding of the map. -/
def addIndex : List (String × List Nat) → String → Nat → List (String × List Nat)
  | [], key, pos => [(key, [pos])]
  | (k, ps) :: rest, key, pos =>
    if k = key then (k, ps ++ [pos]) :: rest
    else (k, ps) :: addIndex rest key pos

/-- `for k, v := range data[0] { ... }` building the index map, with `pos`
the position of the next header cell. -/
def buildIndexMapAux (pos : Nat) (m : List (String × List Nat)) :
    List String → List (String × List Nat)
  | [] => m
  | h :: hs => buildIndexMapAux (pos + 1) (addIndex m (sanitizeColumnName h) pos) hs

/-- The index map of `parseCsvData`, keyed by sanitized column name, in
first-seen key order with positions in header order. -/
def buildIndexMap (hdr : List String) : List (String × List Nat) :=
  buildIndexMapAux 0 [] hdr

/-- The inner cell loop of `parseCsvData`: split on commas, trim each
piece, skip empty pieces, count the rest. -/
def processCell (ic : List (String × Nat)) (cell : String) : List (String × Nat) :=
  (splitOnChar ',' cell.toList).foldl
    (fun m piece =>
      let issue := String.mk (trimChars piece)
      if issue = "" then m else incr m issue)
    ic

/-- `for _, indexVal := range index { ... }`: read each mapped cell of the
data row and accumulate issue counts; `none` models the out-of-range panic
of `debateData[indexVal]`. -/
def candFold (row : List String) : List Nat → List (String × Nat) →
    Option (List (String × Nat))
  | [], ic => some ic
  | i :: rest, ic =>
    match row.get? i with
    | none => none
    | some cell => candFold row rest (processCell ic cell)

/-- `for rowKey, index := range indexMap { ... }` for one data row, with
the map's iteration order given explicitly as the list order of `im`. -/
def parseRowWith (row : List String) :
    List (String × List Nat) → Debate → PResult Debate
  | [], d => .ok d
  | (k, idx) :: rest, d =>
    if containsDate k then
      if 1 < idx.length then .err dupDateMsg
      else
        match idx with
        | [] => .panicked
        | i :: _ =>
          match row.get? i with
          | none => .panicked
          | some v => parseRowWith row rest { d with Date := v }
    else
      match candFold row idx [] with
      | none => .panicked
      | some ic =>
        parseRowWith row rest
          { d with Candidates := d.Candidates ++ [⟨k, ic⟩] }

/-- `for _, debateData := range data[1:] { ... }` with a fixed index-map
iteration order. -/
def parseDebates (im : List (String × List Nat)) :
    List (List String) → PResult (List Debate)
  | [] => .ok []
  | r :: rs =>
    match parseRowWith r im ⟨"", []⟩ with
    | .ok d =>
      match parseDebates im rs with
      | .ok ds => .ok (d :: ds)
      | .err m => .err m
      | .panicked => .panicked
    | .err m => .err m
    | .panicked => .panicked

/-- `parseCsvData`: builds the index map from `data[0]` (panicking on an
empty input, as the unconditional `data[0]` does) and parses each data
row, iterating the index map in first-seen key order. -/
def parseCsvData (data : List (List String)) : PResult (List Debate) :=
  match data with
  | [] => .panicked
  | hdr :: rows => parseDebates (buildIndexMap hdr) rows

/-! ## getIssues and the descending sort -/

/-- Adding a key to the deduplicating `issues` map: membership is all that
matters; insertion order is kept so that iteration is deterministic here
(the source's map iteration order is neutralized by the sort; theorem
`c5_issue_universe` proves that invariance). -/
def insertIfAbsent (l : List String) (s : String) : List String :=
  if s ∈ l then l else l ++ [s]

/-- `getIssues`: the deduplicated list of issue names over all debates and
candidates. -/
def getIssues (debates : List Debate) : List String :=
  debates.foldl
    (fun acc d =>
      d.Candidates.foldl
        (fun acc c => c.IssueCount.foldl (fun acc p => insertIfAbsent acc p.1) acc)
        acc)
    []

/-- Go string `≤` (byte-wise lexicographic, equivalently code-point-wise
on valid UTF-8), on the character lists. -/
def charListLe : List Char → List Char → Bool
  | [], _ => true
  | _ :: _, [] => false
  | a :: as, b :: bs => if a = b then charListLe as bs else decide (a < b)

/-- Go `s <= t` on strings. -/
def strLe (a b : String) : Bool :=
  charListLe a.toList b.toList

/-- The comparison used by `sort.Sort(sort.Reverse(sort.StringSlice(...)))`:
descending string order. -/
def geStr (a b : String) : Prop := strLe b a = true

instance : DecidableRel geStr := fun a b => inferInstanceAs (Decidable (strLe b a = true))

/-- `sort.Sort(sort.Reverse(sort.StringSlice(l)))`: the list sorted in
descending order. -/
def sortDesc (l : List String) : List String :=
  l.insertionSort geStr

/-! ## summarize -/

/-- The header built by `summarize`. -/
def hdrOf (ds : List Debate) : List String :=
  "Date" :: "Candidate" :: sortDesc (getIssues ds)

/-- One output row for a candidate: the `switch` over the header cells. -/
def buildRow (header : List String) (date nm : String)
    (ic : List (String × Nat)) : List String :=
  header.map fun h =>
    if h = "Date" then date
    else if h = "Candidate" then nm
    else Itoa (lookupCount ic h)

/-- The data rows of the output: one per (debate, candidate) pair, in
order. -/
def dataRowsOf (ds : List Debate) : List (List String) :=
  ds.flatMap fun d => d.Candidates.map fun c => buildRow (hdrOf ds) d.Date c.Name c.IssueCount

/-- The aggregation inner loop: running total of `strconv.Atoi` of the
cells of column `col`, failing on the first non-numeric cell. -/
def sumColAux (col : Nat) (acc : Int) :
    List (List String) → Except String Int
  | [] => .ok acc
  | r :: rs =>
    match Atoi (r.getD col "") with
    | none => .error intParseMsg
    | some v => sumColAux col (acc + v) rs

/-- The aggregation outer loop: one `Except`-valued result per column,
short-circuiting on the first failing column (column-major, like the Go
nested loops). -/
def mapExcept {α β : Type} (f : α → Except String β) : List α → Except String (List β)
  | [] => .ok []
  | x :: xs =>
    match f x with
    | .error e => .error e
    | .ok v =>
      match mapExcept f xs with
      | .error e => .error e
      | .ok vs => .ok (v :: vs)

/-- `summarize`: header, one row per (debate, candidate), then the final
"Total" row whose issue cells are the per-column sums of the data rows. -/
def summarize (ds : List Debate) : Except String (List (List String)) :=
  match mapExcept (fun i => sumColAux (i + 2) 0 (dataRowsOf ds))
      (List.range ((hdrOf ds).length - 2)) with
  | .error e => .error e
  | .ok totals => .ok ((hdrOf ds :: dataRowsOf ds) ++ ["" :: "Total" :: totals.map ItoaInt])

/-- The parse-then-summarize pipeline with an explicit index-map iteration
order, for stating determinism properties. -/
def pipelineWith (im : List (String × List Nat)) (data : List (List String)) :
    PResult (List (List String)) :=
  match data with
  | [] => .panicked
  | _ :: rows =>
    match parseDebates im rows with
    | .ok ds =>
      match summarize ds with
      | .ok rws => .ok rws
      | .error e => .err e
    | .err m => .err m
    | .panicked => .panicked

/-- The pipeline as the program runs it (index map in first-seen order). -/
def pipeline (data : List (List String)) : PResult (List (List String)) :=
  match data with
  | [] => .panicked
  | hdr :: _ => pipelineWith (buildIndexMap hdr) data

/-- The exact sum of the `Atoi` values of column `col` over `rows`
(missing or unparseable cells counted as 0); used to state what the
"Total" row contains. -/
def colSumP (rows : List (List String)) (col : Nat) : Int :=
  (rows.map fun r => (Atoi (r.getD col "")).getD 0).sum

/-- The final "Total" row as `summarize` produces it on success: column 0
is the zero value `""` of `make([]string, ...)`, column 1 is `"Total"`,
and each issue column holds the rendered exact column sum (this shape is
proved in `summarize_ok_elim`, not assumed). -/
def finRowOf (ds : List Debate) : List String :=
  "" :: "Total" ::
    (List.range ((hdrOf ds).length - 2)).map
      (fun i => ItoaInt (colSumP (dataRowsOf ds) (i + 2)))

instance {α β : Type} [DecidableEq α] [DecidableEq β] : DecidableEq (Except α β) :=
  fun a b =>
    match a, b with
    | .ok x, .ok y =>
      if h : x = y then .isTrue (by rw [h]) else .isFalse (by simp [h])
    | .error x, .error y =>
      if h : x = y then .isTrue (by rw [h]) else .isFalse (by simp [h])
    | .ok _, .error _ => .isFalse (by simp)
    | .error _, .ok _ => .isFalse (by simp)

/-! ## Order facts for the descending sort -/

theorem charListLe_total : ∀ a b : List Char, charListLe a b = true ∨ charListLe b a = true
  | [], _ => Or.inl rfl
  | _ :: _, [] => Or.inr rfl
  | a :: as, b :: bs => by
    by_cases h : a = b
    · subst h
      simpa [charListLe] using charListLe_total as bs
    · rcases lt_or_gt_of_ne h with hlt | hgt
      · left; simp [charListLe, h, hlt]
      · right; simp [charListLe, Ne.symm h, hgt]

theorem charListLe_antisymm : ∀ a b : List Char,
    charListLe a b = true → charListLe b a = true → a = b
  | [], [], _, _ => rfl
  | [], _ :: _, _, h2 => by simp [charListLe] at h2
  | _ :: _, [], h1, _ => by simp [charListLe] at h1
  | a :: as, b :: bs, h1, h2 => by
    by_cases h : a = b
    · subst h
      simp only [charListLe, if_pos rfl] at h1 h2
      rw [charListLe_antisymm as bs h1 h2]
    · simp only [charListLe, if_neg h, if_neg (Ne.symm h), decide_eq_true_eq] at h1 h2
      exact absurd h2 (lt_asymm h1)

theorem charListLe_trans : ∀ a b c : List Char,
    charListLe a b = true → charListLe b c = true → charListLe a c = true
  | [], _, _, _, _ => rfl
  | _ :: _, [], _, h1, _ => by simp [charListLe] at h1
  | _ :: _, _ :: _, [], _, h2 => by simp [charListLe] at h2
  | a :: as, b :: bs, c :: cs, h1, h2 => by
    by_cases hab : a = b <;> by_cases hbc : b = c
    · subst hab; subst hbc
      simp only [charListLe, if_pos rfl] at h1 h2 ⊢
      exact charListLe_trans as bs cs h1 h2
    · subst hab
      simpa [charListLe, hbc] using h2
    · subst hbc
      simpa [charListLe, hab] using h1
    · simp only [charListLe, if_neg hab, if_neg hbc, decide_eq_true_eq] at h1 h2
      have hac : a < c := lt_trans h1 h2
      simp [charListLe, ne_of_lt hac, hac]

theorem toList_inj {a b : String} (h : a.toList = b.toList) : a = b := by
  cases a; cases b
  exact congrArg String.mk h

instance : IsTotal String geStr :=
  ⟨fun a b => (charListLe_total b.toList a.toList).imp id id⟩

instance : IsTrans String geStr :=
  ⟨fun _ _ _ h1 h2 => charListLe_trans _ _ _ h2 h1⟩

instance : IsAntisymm String geStr :=
  ⟨fun _ _ h1 h2 => toList_inj (charListLe_antisymm _ _ h2 h1)⟩

/-! ## Itoa / Atoi roundtrip -/

theorem digitChar_isDigit {n : Nat} (h : n < 10) : (digitChar n).isDigit = true := by
  interval_cases n <;> decide

theorem digitChar_val {n : Nat} (h : n < 10) : (digitChar n).toNat - 48 = n := by
  interval_cases n <;> decide

theorem digitsVal_append (l : List Char) (c : Char) :
    digitsVal (l ++ [c]) = digitsVal l * 10 + (c.toNat - 48) := by
  simp [digitsVal, List.foldl_append]

theorem natToDigitsAux_spec : ∀ fuel n, n ≤ fuel →
    digitsVal (natToDigitsAux fuel n) = n ∧
    ∀ c ∈ natToDigitsAux fuel n, c.isDigit = true := by
  intro fuel
  induction fuel with
  | zero =>
    intro n hn
    have : n = 0 := Nat.le_zero.mp hn
    subst this
    exact ⟨rfl, by simp [natToDigitsAux]⟩
  | succ f ih =>
    intro n hn
    by_cases h0 : n = 0
    · subst h0
      exact ⟨rfl, by simp [natToDigitsAux]⟩
    · have hdiv : n / 10 < n := Nat.div_lt_self (Nat.pos_of_ne_zero h0) (by norm_num)
      have hf : n / 10 ≤ f := by omega
      obtain ⟨hval, hdig⟩ := ih (n / 10) hf
      have hmod : n % 10 < 10 := Nat.mod_lt _ (by norm_num)
      constructor
      · rw [natToDigitsAux, if_neg h0, digitsVal_append, hval, digitChar_val hmod]
        omega
      · intro c hc
        rw [natToDigitsAux, if_neg h0] at hc
        rcases List.mem_append.mp hc with h | h
        · exact hdig c h
        · rw [List.mem_singleton.mp h]
          exact digitChar_isDigit hmod

theorem natDigits_spec (n : Nat) :
    digitsVal (natDigits n) = n ∧
    (∀ c ∈ natDigits n, c.isDigit = true) ∧ natDigits n ≠ [] := by
  by_cases h0 : n = 0
  · subst h0; refine ⟨rfl, ?_, by decide⟩
    simp [natDigits]
  · obtain ⟨hval, hdig⟩ := natToDigitsAux_spec n n le_rfl
    refine ⟨by simpa [natDigits, h0] using hval, by simpa [natDigits, h0] using hdig, ?_⟩
    rw [natDigits, if_neg h0]
    cases n with
    | zero => exact absurd rfl h0
    | succ m =>
      rw [natToDigitsAux, if_neg h0]
      simp

theorem isDigit_ne_plus {c : Char} (h : c.isDigit = true) : c ≠ '+' := by
  intro he; subst he; exact absurd h (by decide)

theorem isDigit_ne_minus {c : Char} (h : c.isDigit = true) : c ≠ '-' := by
  intro he; subst he; exact absurd h (by decide)

theorem toList_mk (l : List Char) : (String.mk l).toList = l := rfl

theorem Atoi_Itoa (n : Nat) : Atoi (Itoa n) = some (n : Int) := by
  obtain ⟨hval, hdig, hne⟩ := natDigits_spec n
  rw [Itoa, Atoi, toList_mk]
  obtain ⟨c, rest, hcons⟩ := List.exists_cons_of_ne_nil hne
  rw [hcons, AtoiChars]
  have hcd : c.isDigit = true := hdig c (hcons ▸ List.mem_cons_self c rest)
  have hall : (c :: rest).all Char.isDigit = true := by
    rw [List.all_eq_true]
    intro x hx
    exact hdig x (hcons ▸ hx)
  rw [if_neg (isDigit_ne_plus hcd), if_neg (isDigit_ne_minus hcd), if_pos hall,
    ← hcons, hval]

theorem Atoi_ItoaInt (i : Int) : Atoi (ItoaInt i) = some i := by
  by_cases hneg : i < 0
  · obtain ⟨hval, hdig, hne⟩ := natDigits_spec i.natAbs
    rw [ItoaInt, if_pos hneg, Atoi, toList_mk, AtoiChars]
    have hemp : (natDigits i.natAbs).isEmpty = false := by
      cases h : natDigits i.natAbs with
      | nil => exact absurd h hne
      | cons a l => rfl
    have hall : (natDigits i.natAbs).all Char.isDigit = true := by
      rw [List.all_eq_true]; exact hdig
    simp only [if_neg (by decide : ¬ ('-' = '+')), if_pos rfl, hemp, hall]
    rw [hval]
    simp only [Bool.not_true, Bool.or_false, if_neg (by decide : ¬ false = true),
      if_pos trivial]
    congr 1
    rw [Int.natCast_natAbs, abs_of_neg hneg, neg_neg]
  · rw [ItoaInt, if_neg hneg, Atoi_Itoa]
    congr 1
    exact Int.toNat_of_nonneg (not_lt.mp hneg)

/-! ## Association-list lemmas -/

theorem lookupCount_incr_self : ∀ (m : List (String × Nat)) (k : String),
    lookupCount (incr m k) k = lookupCount m k + 1
  | [], k => by simp [incr, lookupCount]
  | (k', n) :: rest, k => by
    by_cases h : k' = k
    · subst h; simp [incr, lookupCount]
    · simp [incr, lookupCount, h, lookupCount_incr_self rest k]

theorem lookupCount_incr_ne (m : List (String × Nat)) {k k' : String} (h : k ≠ k') :
    lookupCount (incr m k) k' = lookupCount m k' := by
  induction m with
  | nil => simp [incr, lookupCount, h]
  | cons p rest ih =>
    obtain ⟨k₀, n₀⟩ := p
    by_cases h0 : k₀ = k
    · subst h0; simp [incr, lookupCount, h]
    · simp [incr, lookupCount, h0, ih]

/-! ## Cell processing (record parser inner loop) -/

theorem mk_eq_empty_iff (l : List Char) : String.mk l = "" ↔ l = [] := by
  constructor
  · intro h
    exact congrArg String.toList h
  · intro h
    subst h
    rfl

theorem lookupCount_step (ic : List (String × Nat)) (p : List Char) (k : String) :
    lookupCount
      (if String.mk (trimChars p) = "" then ic else incr ic (String.mk (trimChars p))) k =
    lookupCount ic k +
      (if (String.mk (trimChars p) == k) && !(trimChars p).isEmpty then 1 else 0) := by
  by_cases htrim : trimChars p = []
  · rw [if_pos ((mk_eq_empty_iff _).mpr htrim), htrim]
    simp
  · have hne : ¬ String.mk (trimChars p) = "" := fun h => htrim ((mk_eq_empty_iff _).mp h)
    have hemp : (trimChars p).isEmpty = false := by
      cases h : trimChars p with
      | nil => exact absurd h htrim
      | cons a l => rfl
    rw [if_neg hne]
    by_cases hk : String.mk (trimChars p) = k
    · have hpred : ((String.mk (trimChars p) == k) && !(trimChars p).isEmpty) = true := by
        rw [hk, hemp]; simp
      rw [if_pos hpred, hk, lookupCount_incr_self]
    · have hpred : ((String.mk (trimChars p) == k) && !(trimChars p).isEmpty) = false := by
        simp [hk]
      rw [lookupCount_incr_ne _ hk, hpred]
      simp

theorem lookupCount_foldPieces :
    ∀ (ps : List (List Char)) (ic : List (String × Nat)) (k : String),
      lookupCount
        (ps.foldl
          (fun m piece =>
            let issue := String.mk (trimChars piece)
            if issue = "" then m else incr m issue)
          ic) k =
      lookupCount ic k +
        ps.countP (fun p => (String.mk (trimChars p) == k) && !(trimChars p).isEmpty)
  | [], ic, k => by simp
  | p :: ps, ic, k => by
    rw [List.foldl_cons, lookupCount_foldPieces ps _ k, List.countP_cons]
    have hstep : lookupCount
        ((fun (m : List (String × Nat)) (piece : List Char) =>
          let issue := String.mk (trimChars piece)
          if issue = "" then m else incr m issue) ic p) k =
        lookupCount ic k +
          (if (String.mk (trimChars p) == k) && !(trimChars p).isEmpty then 1 else 0) := by
      show lookupCount
        (if String.mk (trimChars p) = "" then ic else incr ic (String.mk (trimChars p))) k = _
      exact lookupCount_step ic p k
    rw [hstep]
    omega

/-- C3: a candidate cell is split on commas, each piece is trimmed of
surrounding whitespace, empty pieces are discarded, and each surviving
piece increments that issue's count (first occurrence yields 1); the cell
"Healthcare, Economy, Healthcare" yields counts Healthcare ↦ 2,
Economy ↦ 1; an empty cell or the cell " , " contributes nothing. -/
theorem c3_cell_splitting :
    (∀ (ic : List (String × Nat)) (cell : String) (k : String),
      lookupCount (processCell ic cell) k =
        lookupCount ic k +
          (splitOnChar ',' cell.toList).countP
            (fun p => (String.mk (trimChars p) == k) && !(trimChars p).isEmpty)) ∧
    processCell [] "Healthcare, Economy, Healthcare" =
      [("Healthcare", 2), ("Economy", 1)] ∧
    (∀ ic, processCell ic "" = ic) ∧
    (∀ ic, processCell ic " , " = ic) := by
  refine ⟨?_, by decide, fun ic => rfl, fun ic => rfl⟩
  intro ic cell k
  exact lookupCount_foldPieces (splitOnChar ',' cell.toList) ic k

/-! ## sanitizeColumnName lemmas -/

theorem rmbd_cons_ne {c : Char} (rest : List Char) (h : c ≠ '[') :
    removeBracketDigits (c :: rest) = c :: removeBracketDigits rest := by
  match rest with
  | [] => rfl
  | [d] => rfl
  | d :: e :: r2 =>
    rw [removeBracketDigits, if_neg (fun hh => h hh.1)]

theorem rmbd_no_bracket : ∀ l : List Char, '[' ∉ l → removeBracketDigits l = l
  | [], _ => rfl
  | c :: rest, h => by
    have hc : c ≠ '[' := fun he => h (he ▸ List.mem_cons_self c rest)
    rw [rmbd_cons_ne rest hc,
      rmbd_no_bracket rest (fun hm => h (List.mem_cons_of_mem _ hm))]

theorem rmbd_bracket_suffix : ∀ (l : List Char) (d : Char), d.isDigit = true →
    '[' ∉ l → removeBracketDigits (l ++ ['[', d, ']']) = l
  | [], d, hd, _ => by simp [removeBracketDigits, hd]
  | c :: l', d, hd, h => by
    have hc : c ≠ '[' := fun he => h (he ▸ List.mem_cons_self c l')
    rw [List.cons_append, rmbd_cons_ne _ hc,
      rmbd_bracket_suffix l' d hd (fun hm => h (List.mem_cons_of_mem _ hm))]

/-- C4 counterexample: the source's normalization removes `[d]` anywhere
(not only as a suffix) and trims only space characters (not all
whitespace), so it disagrees with the spec's described rule on `"[1]a"`
(code removes the non-suffix occurrence) and on a tab-prefixed header
(code keeps the tab). -/
theorem c4_counterexample :
    sanitizeColumnName "[1]a" = "a" ∧ specSanitizeColumnName "[1]a" = "[1]a" ∧
    sanitizeColumnName "\tA" = "\tA" ∧ specSanitizeColumnName "\tA" = "A" := by
  refine ⟨by decide, by decide, by decide, by decide⟩

/-- C4 (amended): normalization removes every `[d]` occurrence (single
decimal digit in brackets) anywhere in the header text and trims
surrounding space characters; in particular a well-formed suffixed header
`name[d]` with no other bracket normalizes to `name` space-trimmed, and
the indexer groups positions under normalized names in header order:
`["Date", "Jane Doe [1]", "Jane Doe [2]"]` maps `"Date"` to `[0]` and
`"Jane Doe"` to `[1, 2]`. -/
theorem c4_amended (nm : String) (d : Char) (hd : d.isDigit = true)
    (hb : '[' ∉ nm.toList) :
    sanitizeColumnName (String.mk (nm.toList ++ ['[', d, ']'])) =
      String.mk (trimSpaceOnly nm.toList) ∧
    buildIndexMap ["Date", "Jane Doe [1]", "Jane Doe [2]"] =
      [("Date", [0]), ("Jane Doe", [1, 2])] ∧
    sanitizeColumnName "A[1]B" = "AB" := by
  refine ⟨?_, by decide, by decide⟩
  rw [sanitizeColumnName, toList_mk, rmbd_bracket_suffix _ d hd hb]

/-- Witness for `c4_amended` at the header text "Jane Doe [1]". -/
theorem c4_amended_witness :
    sanitizeColumnName (String.mk ("Jane Doe ".toList ++ ['[', '1', ']'])) =
      String.mk (trimSpaceOnly "Jane Doe ".toList) ∧
    buildIndexMap ["Date", "Jane Doe [1]", "Jane Doe [2]"] =
      [("Date", [0]), ("Jane Doe", [1, 2])] ∧
    sanitizeColumnName "A[1]B" = "AB" :=
  c4_amended "Jane Doe " '1' (by decide) (by decide)

/-! ## getIssues and sortDesc lemmas -/

theorem mem_insertIfAbsent (l : List String) (s x : String) :
    x ∈ insertIfAbsent l s ↔ x ∈ l ∨ x = s := by
  by_cases hs : s ∈ l
  · rw [insertIfAbsent, if_pos hs]
    constructor
    · exact Or.inl
    · rintro (h | rfl)
      · exact h
      · exact hs
  · rw [insertIfAbsent, if_neg hs]
    simp

theorem nodup_insertIfAbsent (l : List String) (s : String) (h : l.Nodup) :
    (insertIfAbsent l s).Nodup := by
  by_cases hs : s ∈ l
  · rwa [insertIfAbsent, if_pos hs]
  · rw [insertIfAbsent, if_neg hs]
    refine List.Nodup.append h (List.nodup_singleton s) ?_
    intro a ha hmem
    rw [List.mem_singleton] at hmem
    exact hs (hmem ▸ ha)

theorem mem_foldl_ins {β : Type} {f : List String → β → List String}
    {Q : String → β → Prop}
    (hf : ∀ acc b x, x ∈ f acc b ↔ x ∈ acc ∨ Q x b)
    (l : List β) (acc : List String) (x : String) :
    x ∈ l.foldl f acc ↔ x ∈ acc ∨ ∃ b ∈ l, Q x b := by
  induction l generalizing acc with
  | nil => simp
  | cons b l ih =>
    rw [List.foldl_cons, ih (f acc b), hf]
    constructor
    · rintro ((h | h) | ⟨b', hb', hq⟩)
      · exact Or.inl h
      · exact Or.inr ⟨b, List.mem_cons_self b l, h⟩
      · exact Or.inr ⟨b', List.mem_cons_of_mem _ hb', hq⟩
    · rintro (h | ⟨b', hb', hq⟩)
      · exact Or.inl (Or.inl h)
      · rcases List.mem_cons.mp hb' with h' | h'
        · subst h'
          exact Or.inl (Or.inr hq)
        · exact Or.inr ⟨b', h', hq⟩

theorem nodup_foldl_ins {β : Type} {f : List String → β → List String}
    (hf : ∀ acc b, acc.Nodup → (f acc b).Nodup)
    (l : List β) (acc : List String) (h : acc.Nodup) : (l.foldl f acc).Nodup := by
  induction l generalizing acc with
  | nil => exact h
  | cons b l ih => exact ih _ (hf acc b h)

theorem mem_issueFold (ic : List (String × Nat)) (acc : List String) (x : String) :
    x ∈ ic.foldl (fun acc p => insertIfAbsent acc p.1) acc ↔
      x ∈ acc ∨ ∃ p ∈ ic, x = p.1 :=
  mem_foldl_ins (fun acc p x => mem_insertIfAbsent acc p.1 x) ic acc x

theorem mem_candIssueFold (cs : List Candidate) (acc : List String) (x : String) :
    x ∈ cs.foldl
      (fun acc c => c.IssueCount.foldl (fun acc p => insertIfAbsent acc p.1) acc)
      acc ↔
    x ∈ acc ∨ ∃ c ∈ cs, ∃ p ∈ c.IssueCount, x = p.1 :=
  mem_foldl_ins (fun acc c x => mem_issueFold c.IssueCount acc x) cs acc x

theorem mem_getIssues (ds : List Debate) (x : String) :
    x ∈ getIssues ds ↔ ∃ d ∈ ds, ∃ c ∈ d.Candidates, ∃ p ∈ c.IssueCount, x = p.1 := by
  unfold getIssues
  rw [mem_foldl_ins (fun acc d x => mem_candIssueFold d.Candidates acc x) ds [] x]
  simp

theorem nodup_getIssues (ds : List Debate) : (getIssues ds).Nodup := by
  unfold getIssues
  refine nodup_foldl_ins ?_ ds [] List.nodup_nil
  intro acc d h
  refine nodup_foldl_ins ?_ d.Candidates acc h
  intro acc c h
  refine nodup_foldl_ins ?_ c.IssueCount acc h
  intro acc p h
  exact nodup_insertIfAbsent acc p.1 h

theorem sortDesc_sorted (l : List String) : List.Sorted geStr (sortDesc l) :=
  List.sorted_insertionSort geStr l

theorem sortDesc_perm (l : List String) : (sortDesc l).Perm l :=
  List.perm_insertionSort geStr l

theorem sortDesc_eq_of_perm {l1 l2 : List String} (h : l1.Perm l2) :
    sortDesc l1 = sortDesc l2 :=
  List.eq_of_perm_of_sorted
    ((sortDesc_perm l1).trans (h.trans (sortDesc_perm l2).symm))
    (sortDesc_sorted l1) (sortDesc_sorted l2)

/-- C5: the issue collector collects exactly the deduplicated set of issue
names over all candidates of all debates; the sorted issue sequence is
strictly descending; its value depends only on the collected set (any
map-iteration permutation sorts to the same sequence) and is invariant
under reordering of the input debates; it is empty when no issues were
recorded. -/
theorem c5_issue_universe (ds : List Debate) :
    (∀ s, s ∈ sortDesc (getIssues ds) ↔
      ∃ d ∈ ds, ∃ c ∈ d.Candidates, ∃ p ∈ c.IssueCount, s = p.1) ∧
    List.Pairwise (fun a b => geStr a b ∧ a ≠ b) (sortDesc (getIssues ds)) ∧
    (∀ l : List String, l.Perm (getIssues ds) → sortDesc l = sortDesc (getIssues ds)) ∧
    (∀ ds' : List Debate, ds'.Perm ds →
      sortDesc (getIssues ds') = sortDesc (getIssues ds)) ∧
    ((∀ d ∈ ds, ∀ c ∈ d.Candidates, c.IssueCount = []) → sortDesc (getIssues ds) = []) := by
  have hmem : ∀ s, s ∈ sortDesc (getIssues ds) ↔
      ∃ d ∈ ds, ∃ c ∈ d.Candidates, ∃ p ∈ c.IssueCount, s = p.1 :=
    fun s => ((sortDesc_perm (getIssues ds)).mem_iff).trans (mem_getIssues ds s)
  refine ⟨hmem, ?_, fun l hl => sortDesc_eq_of_perm hl, ?_, ?_⟩
  · have hnd : (sortDesc (getIssues ds)).Nodup :=
      ((sortDesc_perm (getIssues ds)).nodup_iff).mpr (nodup_getIssues ds)
    exact (sortDesc_sorted (getIssues ds)).and hnd
  · intro ds' hds
    refine sortDesc_eq_of_perm ?_
    rw [List.perm_ext_iff_of_nodup (nodup_getIssues ds') (nodup_getIssues ds)]
    intro a
    rw [mem_getIssues, mem_getIssues]
    constructor
    · rintro ⟨d, hd, rest⟩
      exact ⟨d, hds.mem_iff.mp hd, rest⟩
    · rintro ⟨d, hd, rest⟩
      exact ⟨d, hds.mem_iff.mpr hd, rest⟩
  · intro hempty
    rw [List.eq_nil_iff_forall_not_mem]
    intro s hs
    obtain ⟨d, hd, c, hc, p, hp, _⟩ := (hmem s).mp hs
    rw [hempty d hd c hc] at hp
    exact absurd hp (List.not_mem_nil p)

/-- Witness for `c5_issue_universe`: a permuted issue list sorts to the
same descending sequence on a concrete input. -/
theorem c5_issue_universe_witness :
    sortDesc ["Jobs", "Tax"] =
      sortDesc (getIssues [⟨"d", [⟨"A", [("Tax", 1), ("Jobs", 2)]⟩]⟩]) :=
  (c5_issue_universe [⟨"d", [⟨"A", [("Tax", 1), ("Jobs", 2)]⟩]⟩]).2.2.1
    ["Jobs", "Tax"] (by decide)

/-! ## summarize structural lemmas -/

theorem colSumP_nil (col : Nat) : colSumP [] col = 0 := rfl

theorem colSumP_cons (r : List String) (rs : List (List String)) (col : Nat) :
    colSumP (r :: rs) col = (Atoi (r.getD col "")).getD 0 + colSumP rs col := by
  rw [colSumP, List.map_cons, List.sum_cons, colSumP]

theorem sumColAux_ok {col : Nat} :
    ∀ (rs : List (List String)) (acc t : Int),
      sumColAux col acc rs = .ok t →
      t = acc + colSumP rs col ∧ ∀ r ∈ rs, (Atoi (r.getD col "")).isSome
  | [], acc, t => by
    intro h
    rw [sumColAux] at h
    injection h with h
    subst h
    exact ⟨by rw [colSumP_nil, add_zero], by simp⟩
  | r :: rs, acc, t => by
    intro h
    rw [sumColAux] at h
    cases hA : Atoi (r.getD col "") with
    | none =>
      rw [hA] at h
      exact absurd h (by simp)
    | some v =>
      rw [hA] at h
      obtain ⟨ht, hall⟩ := sumColAux_ok rs (acc + v) t h
      constructor
      · rw [ht, colSumP_cons, hA, Option.getD_some]
        ring
      · intro r' hr'
        rcases List.mem_cons.mp hr' with h' | h'
        · subst h'
          rw [hA]
          rfl
        · exact hall r' h'

theorem sumColAux_ok_of_parses {col : Nat} :
    ∀ (rs : List (List String)) (acc : Int),
      (∀ r ∈ rs, (Atoi (r.getD col "")).isSome) →
      sumColAux col acc rs = .ok (acc + colSumP rs col)
  | [], acc, _ => by
    rw [sumColAux, colSumP_nil, add_zero]
  | r :: rs, acc, hall => by
    cases hA : Atoi (r.getD col "") with
    | none =>
      have := hall r (List.mem_cons_self r rs)
      rw [hA] at this
      exact absurd this (by simp)
    | some v =>
      rw [sumColAux, hA]
      show sumColAux col (acc + v) rs = Except.ok (acc + colSumP (r :: rs) col)
      rw [sumColAux_ok_of_parses rs (acc + v)
        (fun r' h' => hall r' (List.mem_cons_of_mem _ h'))]
      congr 1
      rw [colSumP_cons, hA, Option.getD_some]
      ring

theorem mapExcept_ok_of {α β : Type} {f : α → Except String β} {g : α → β} :
    ∀ l : List α, (∀ x ∈ l, f x = .ok (g x)) → mapExcept f l = .ok (l.map g)
  | [], _ => rfl
  | x :: xs, h => by
    rw [mapExcept, h x (List.mem_cons_self x xs)]
    show (match mapExcept f xs with
      | Except.error e => (Except.error e : Except String (List β))
      | Except.ok vs => Except.ok (g x :: vs)) = _
    rw [mapExcept_ok_of xs (fun y hy => h y (List.mem_cons_of_mem _ hy))]
    rfl

theorem mapExcept_ok_elim {α β : Type} {f : α → Except String β} :
    ∀ {l : List α} {ys : List β}, mapExcept f l = .ok ys → ∀ x ∈ l, ∃ y, f x = .ok y := by
  intro l
  induction l with
  | nil => intro ys _ x hx; exact absurd hx (List.not_mem_nil x)
  | cons a as ih =>
    intro ys h x hx
    rw [mapExcept] at h
    cases hfa : f a with
    | error e => rw [hfa] at h; exact absurd h (by simp)
    | ok v =>
      rw [hfa] at h
      cases hrec : mapExcept f as with
      | error e => rw [hrec] at h; exact absurd h (by simp)
      | ok vs =>
        rcases List.mem_cons.mp hx with h' | h'
        · subst h'
          exact ⟨v, hfa⟩
        · exact ih hrec x h'

theorem summarize_ok_elim {ds : List Debate} {rows : List (List String)}
    (h : summarize ds = .ok rows) :
    rows = (hdrOf ds :: dataRowsOf ds) ++ [finRowOf ds] ∧
    ∀ r ∈ dataRowsOf ds, ∀ i, i < (hdrOf ds).length - 2 →
      (Atoi (r.getD (i + 2) "")).isSome := by
  rw [summarize] at h
  cases hm : mapExcept (fun i => sumColAux (i + 2) 0 (dataRowsOf ds))
      (List.range ((hdrOf ds).length - 2)) with
  | error e =>
    rw [hm] at h
    exact absurd h (by simp)
  | ok totals =>
    rw [hm] at h
    injection h with h
    have hcols : ∀ i ∈ List.range ((hdrOf ds).length - 2),
        ∃ t, sumColAux (i + 2) 0 (dataRowsOf ds) = .ok t :=
      mapExcept_ok_elim hm
    have hparse : ∀ r ∈ dataRowsOf ds, ∀ i, i < (hdrOf ds).length - 2 →
        (Atoi (r.getD (i + 2) "")).isSome := by
      intro r hr i hi
      obtain ⟨t, ht⟩ := hcols i (List.mem_range.mpr hi)
      exact (sumColAux_ok _ 0 t ht).2 r hr
    have htot : totals = (List.range ((hdrOf ds).length - 2)).map
        (fun i => colSumP (dataRowsOf ds) (i + 2)) := by
      have hmap : mapExcept (fun i => sumColAux (i + 2) 0 (dataRowsOf ds))
          (List.range ((hdrOf ds).length - 2)) =
          .ok ((List.range ((hdrOf ds).length - 2)).map
            (fun i => colSumP (dataRowsOf ds) (i + 2))) := by
        refine mapExcept_ok_of _ (fun i hi => ?_)
        obtain ⟨t, ht⟩ := hcols i hi
        have hval := (sumColAux_ok _ 0 t ht).1
        rw [ht, hval, zero_add]
      rw [hm] at hmap
      exact Except.ok.inj hmap
    refine ⟨?_, hparse⟩
    rw [← h, htot, finRowOf, List.map_map]
    rfl

theorem summarize_ok_intro (ds : List Debate)
    (hall : ∀ r ∈ dataRowsOf ds, ∀ i, i < (hdrOf ds).length - 2 →
      (Atoi (r.getD (i + 2) "")).isSome) :
    summarize ds = .ok ((hdrOf ds :: dataRowsOf ds) ++ [finRowOf ds]) := by
  rw [summarize]
  have hmap : mapExcept (fun i => sumColAux (i + 2) 0 (dataRowsOf ds))
      (List.range ((hdrOf ds).length - 2)) =
      .ok ((List.range ((hdrOf ds).length - 2)).map
        (fun i => colSumP (dataRowsOf ds) (i + 2))) := by
    refine mapExcept_ok_of _ (fun i hi => ?_)
    rw [sumColAux_ok_of_parses (dataRowsOf ds) 0
      (fun r hr => hall r hr i (List.mem_range.mp hi)), zero_add]
  rw [hmap]
  show Except.ok ((hdrOf ds :: dataRowsOf ds) ++
      ["" :: "Total" :: ((List.range ((hdrOf ds).length - 2)).map
        (fun i => colSumP (dataRowsOf ds) (i + 2))).map ItoaInt]) = _
  rw [List.map_map, finRowOf]
  rfl

/-! ## Row-level lemmas -/

theorem buildRow_get? (header : List String) (date nm : String)
    (ic : List (String × Nat)) (col : Nat) :
    (buildRow header date nm ic).get? col = (header.get? col).map
      (fun h => if h = "Date" then date else if h = "Candidate" then nm
        else Itoa (lookupCount ic h)) := by
  rw [buildRow, List.get?_map]

theorem buildRow_length (header : List String) (date nm : String)
    (ic : List (String × Nat)) :
    (buildRow header date nm ic).length = header.length := by
  rw [buildRow, List.length_map]

theorem hdrOf_length (ds : List Debate) :
    (hdrOf ds).length = 2 + (sortDesc (getIssues ds)).length := by
  rw [hdrOf, List.length_cons, List.length_cons]
  omega

theorem hdrOf_get?_succ (ds : List Debate) (i : Nat) :
    (hdrOf ds).get? (i + 2) = (sortDesc (getIssues ds)).get? i := by
  rw [hdrOf]
  rfl

theorem mem_dataRowsOf {ds : List Debate} {r : List String} :
    r ∈ dataRowsOf ds ↔ ∃ d ∈ ds, ∃ c ∈ d.Candidates,
      r = buildRow (hdrOf ds) d.Date c.Name c.IssueCount := by
  unfold dataRowsOf
  constructor
  · intro h
    obtain ⟨d, hd, hr⟩ := List.mem_flatMap.mp h
    obtain ⟨c, hc, hbc⟩ := List.mem_map.mp hr
    exact ⟨d, hd, c, hc, hbc.symm⟩
  · rintro ⟨d, hd, c, hc, rfl⟩
    exact List.mem_flatMap.mpr ⟨d, hd, List.mem_map.mpr ⟨c, hc, rfl⟩⟩

theorem dataRow_cell_parses (ds : List Debate) (hD : "Date" ∉ getIssues ds)
    (hC : "Candidate" ∉ getIssues ds) :
    ∀ r ∈ dataRowsOf ds, ∀ i, i < (hdrOf ds).length - 2 →
      (Atoi (r.getD (i + 2) "")).isSome := by
  intro r hr i hi
  obtain ⟨d, hd, c, hc, rfl⟩ := mem_dataRowsOf.mp hr
  have hlen := hdrOf_length ds
  have hi' : i < (sortDesc (getIssues ds)).length := by omega
  cases hs : (sortDesc (getIssues ds)).get? i with
  | none =>
    have := List.get?_eq_none.mp hs
    omega
  | some s =>
    have hsmem : s ∈ getIssues ds := (sortDesc_perm _).mem_iff.mp (List.get?_mem hs)
    have hsD : s ≠ "Date" := fun he => hD (he ▸ hsmem)
    have hsC : s ≠ "Candidate" := fun he => hC (he ▸ hsmem)
    rw [List.getD_eq_get?, buildRow_get?, hdrOf_get?_succ, hs, Option.map_some',
      Option.getD_some, if_neg hsD, if_neg hsC, Atoi_Itoa]
    rfl

/-- C9 counterexample: the aggregation failure branch is reachable.  An
issue literally named "Date" makes the header's `switch` write the
debate's date into an issue column; a non-numeric date then fails
`strconv.Atoi` during aggregation, so `summarize` returns the
data-integrity error. -/
theorem c9_counterexample :
    summarize [⟨"x", [⟨"A", [("Date", 1)]⟩]⟩] = .error intParseMsg := by
  decide

/-- C9 (amended): the aggregation parse-failure branch is unreachable
provided no issue in the collected universe is named "Date" or
"Candidate" (the two header names the row-building `switch` treats
specially); under that proviso `summarize` always succeeds. -/
theorem c9_amended (ds : List Debate) (hD : "Date" ∉ getIssues ds)
    (hC : "Candidate" ∉ getIssues ds) :
    ∃ rows, summarize ds = .ok rows :=
  ⟨_, summarize_ok_intro ds (dataRow_cell_parses ds hD hC)⟩

/-- Witness for `c9_amended` on a concrete debate list. -/
theorem c9_amended_witness :
    ∃ rows, summarize [⟨"2020", [⟨"A", [("Tax", 2)]⟩]⟩] = .ok rows :=
  c9_amended [⟨"2020", [⟨"A", [("Tax", 2)]⟩]⟩] (by decide) (by decide)

/-- C1: whenever `summarize` returns a table, its final row has `""` in
column 0, `"Total"` in column 1, and for every issue column the decimal
rendering of the exact sum of that column's parsed integer values over
the data rows (rows 1..N, i.e. `rows.tail.dropLast`), each of which
parses successfully. -/
theorem c1_total_row (ds : List Debate) (rows : List (List String))
    (h : summarize ds = .ok rows) :
    rows.getLast? = some ("" :: "Total" ::
      (List.range ((hdrOf ds).length - 2)).map
        (fun i => ItoaInt (colSumP rows.tail.dropLast (i + 2)))) ∧
    ∀ r ∈ rows.tail.dropLast, ∀ i, i < (hdrOf ds).length - 2 →
      (Atoi (r.getD (i + 2) "")).isSome := by
  obtain ⟨hrows, hparse⟩ := summarize_ok_elim h
  have htail : rows.tail.dropLast = dataRowsOf ds := by
    rw [hrows, List.cons_append, List.tail_cons, List.dropLast_concat]
  rw [htail]
  refine ⟨?_, hparse⟩
  rw [hrows, List.getLast?_concat]
  rfl

/-- Witness for `c1_total_row` on the spec's end-to-end example. -/
theorem c1_total_row_witness :
    ([["Date", "Candidate", "Tax", "Jobs"], ["2020-01-01", "A", "1", "2"],
      ["", "Total", "1", "2"]] : List (List String)).getLast? =
      some ("" :: "Total" ::
        (List.range
          ((hdrOf [⟨"2020-01-01", [⟨"A", [("Tax", 1), ("Jobs", 2)]⟩]⟩]).length - 2)).map
          (fun i => ItoaInt (colSumP
            ([["Date", "Candidate", "Tax", "Jobs"], ["2020-01-01", "A", "1", "2"],
              ["", "Total", "1", "2"]] : List (List String)).tail.dropLast (i + 2)))) :=
  (c1_total_row [⟨"2020-01-01", [⟨"A", [("Tax", 1), ("Jobs", 2)]⟩]⟩] _ (by decide)).1

/-! ## Direct row shape under no shadowing -/

theorem flatMap_congr_left {α β : Type} {l : List α} {f g : α → List β}
    (h : ∀ a ∈ l, f a = g a) : l.flatMap f = l.flatMap g := by
  induction l with
  | nil => rfl
  | cons a as ih =>
    rw [List.flatMap_cons, List.flatMap_cons, h a (List.mem_cons_self a as),
      ih (fun x hx => h x (List.mem_cons_of_mem _ hx))]

theorem buildRow_direct (ds : List Debate) (hD : "Date" ∉ getIssues ds)
    (hC : "Candidate" ∉ getIssues ds) (date nm : String) (ic : List (String × Nat)) :
    buildRow (hdrOf ds) date nm ic =
      date :: nm :: (sortDesc (getIssues ds)).map (fun s => Itoa (lookupCount ic s)) := by
  rw [buildRow, hdrOf, List.map_cons, List.map_cons, if_pos rfl,
    if_neg (by decide : ¬ ("Candidate" : String) = "Date"), if_pos rfl]
  have hmap : (sortDesc (getIssues ds)).map
      (fun h => if h = "Date" then date else if h = "Candidate" then nm
        else Itoa (lookupCount ic h)) =
      (sortDesc (getIssues ds)).map (fun s => Itoa (lookupCount ic s)) := by
    refine List.map_congr_left (fun s hs => ?_)
    have hsmem : s ∈ getIssues ds := (sortDesc_perm _).mem_iff.mp hs
    have hsD : ¬ s = "Date" := fun he => hD (he ▸ hsmem)
    have hsC : ¬ s = "Candidate" := fun he => hC (he ▸ hsmem)
    rw [if_neg hsD, if_neg hsC]
  rw [hmap]

theorem dataRowsOf_eq_direct (ds : List Debate) (hD : "Date" ∉ getIssues ds)
    (hC : "Candidate" ∉ getIssues ds) :
    dataRowsOf ds = ds.flatMap (fun d => d.Candidates.map (fun c =>
      d.Date :: c.Name :: (sortDesc (getIssues ds)).map
        (fun s => Itoa (lookupCount c.IssueCount s)))) := by
  unfold dataRowsOf
  refine flatMap_congr_left (fun d _ => ?_)
  refine List.map_congr_left (fun c _ => ?_)
  exact buildRow_direct ds hD hC d.Date c.Name c.IssueCount

/-- C2 counterexample: an issue literally named "Date" is shadowed by the
header `switch`, so the issue column holds the debate's date instead of
the rendered count (the candidate's count for "Date" is 1, rendered "1",
but the emitted cell is "-5"). -/
theorem c2_counterexample :
    summarize [⟨"-5", [⟨"A", [("Date", 1)]⟩]⟩] =
      .ok [["Date", "Candidate", "Date"], ["-5", "A", "-5"], ["", "Total", "-5"]] ∧
    Itoa (lookupCount [("Date", 1)] "Date") = "1" ∧ ("-5" : String) ≠ "1" := by
  exact ⟨by decide, by decide, by decide⟩

/-- C2 (amended): provided no issue in the universe is named "Date" or
"Candidate", `summarize` succeeds and emits, for each debate and each
candidate in order, exactly one data row `date :: name :: counts`, where
each issue column holds the rendered count with 0 for an absent issue;
an issue named "Date" or "Candidate" instead receives the debate's date
or the candidate's name in that column. -/
theorem c2_amended (ds : List Debate) (hD : "Date" ∉ getIssues ds)
    (hC : "Candidate" ∉ getIssues ds) :
    ∃ fin, summarize ds = .ok ((hdrOf ds ::
      ds.flatMap (fun d => d.Candidates.map (fun c =>
        d.Date :: c.Name :: (sortDesc (getIssues ds)).map
          (fun s => Itoa (lookupCount c.IssueCount s))))) ++ [fin]) := by
  refine ⟨finRowOf ds, ?_⟩
  rw [← dataRowsOf_eq_direct ds hD hC]
  exact summarize_ok_intro ds (dataRow_cell_parses ds hD hC)

/-- Witness for `c2_amended` on a concrete debate list. -/
theorem c2_amended_witness :
    ∃ fin, summarize [⟨"2021", [⟨"B", [("Jobs", 1)]⟩]⟩] =
      .ok ((hdrOf [⟨"2021", [⟨"B", [("Jobs", 1)]⟩]⟩] ::
        ([⟨"2021", [⟨"B", [("Jobs", 1)]⟩]⟩] : List Debate).flatMap
          (fun d => d.Candidates.map (fun c =>
            d.Date :: c.Name ::
              (sortDesc (getIssues [⟨"2021", [⟨"B", [("Jobs", 1)]⟩]⟩])).map
                (fun s => Itoa (lookupCount c.IssueCount s))))) ++ [fin]) :=
  c2_amended [⟨"2021", [⟨"B", [("Jobs", 1)]⟩]⟩] (by decide) (by decide)

/-! ## Rectangularity and cell-value lemmas -/

theorem finRowOf_length (ds : List Debate) :
    (finRowOf ds).length = (hdrOf ds).length := by
  rw [finRowOf, List.length_cons, List.length_cons, List.length_map,
    List.length_range, hdrOf_length]
  omega

theorem finRowOf_cell (ds : List Debate) (i : Nat) (hi : i < (hdrOf ds).length - 2) :
    (finRowOf ds).get? (i + 2) = some (ItoaInt (colSumP (dataRowsOf ds) (i + 2))) := by
  rw [finRowOf]
  show ((List.range ((hdrOf ds).length - 2)).map
    (fun i => ItoaInt (colSumP (dataRowsOf ds) (i + 2)))).get? i = _
  rw [List.get?_map, List.get?_range hi, Option.map_some']

theorem dataRow_cell_value (ds : List Debate) (hD : "Date" ∉ getIssues ds)
    (hC : "Candidate" ∉ getIssues ds) :
    ∀ r ∈ dataRowsOf ds, ∀ i, i < (hdrOf ds).length - 2 →
      ∃ v : Nat, Atoi (r.getD (i + 2) "") = some (v : Int) := by
  intro r hr i hi
  obtain ⟨d, hd, c, hc, rfl⟩ := mem_dataRowsOf.mp hr
  have hlen := hdrOf_length ds
  have hi' : i < (sortDesc (getIssues ds)).length := by omega
  cases hs : (sortDesc (getIssues ds)).get? i with
  | none =>
    have := List.get?_eq_none.mp hs
    omega
  | some s =>
    have hsmem : s ∈ getIssues ds := (sortDesc_perm _).mem_iff.mp (List.get?_mem hs)
    have hsD : ¬ s = "Date" := fun he => hD (he ▸ hsmem)
    have hsC : ¬ s = "Candidate" := fun he => hC (he ▸ hsmem)
    refine ⟨lookupCount c.IssueCount s, ?_⟩
    rw [List.getD_eq_get?, buildRow_get?, hdrOf_get?_succ, hs, Option.map_some',
      Option.getD_some, if_neg hsD, if_neg hsC, Atoi_Itoa]

/-- C6 counterexample: a negative date string leaking through an issue
column named "Date" produces a cell (and a Total cell) whose only integer
reading is negative, violating "parses as a non-negative integer". -/
theorem c6_counterexample :
    summarize [⟨"-7", [⟨"B", [("Date", 2)]⟩]⟩] =
      .ok [["Date", "Candidate", "Date"], ["-7", "B", "-7"], ["", "Total", "-7"]] ∧
    (([["Date", "Candidate", "Date"], ["-7", "B", "-7"], ["", "Total", "-7"]].getD 1
      []).getD 2 "" : String) = "-7" ∧
    Atoi "-7" = some (-7) ∧ ¬ (0 : Int) ≤ -7 := by
  exact ⟨by decide, by decide, by decide, by decide⟩

/-- C6 (amended): on success every row of the output has exactly the
header's cell count, which is `2 + |issue universe|`; every cell of the
data and Total rows in columns 2 and beyond parses as a base-10 integer;
and those integers are all non-negative provided no issue is named
"Date" or "Candidate" (shadowed columns can otherwise carry arbitrary,
possibly negative, date/name strings). -/
theorem c6_amended (ds : List Debate) (rows : List (List String))
    (h : summarize ds = .ok rows) :
    (∀ r ∈ rows, r.length = 2 + (sortDesc (getIssues ds)).length) ∧
    rows.head? = some (hdrOf ds) ∧
    (∀ r ∈ rows.tail, ∀ col, 2 ≤ col → col < 2 + (sortDesc (getIssues ds)).length →
      (Atoi (r.getD col "")).isSome) ∧
    ("Date" ∉ getIssues ds → "Candidate" ∉ getIssues ds →
      ∀ r ∈ rows.tail, ∀ col, 2 ≤ col → col < 2 + (sortDesc (getIssues ds)).length →
        0 ≤ (Atoi (r.getD col "")).getD 0) := by
  obtain ⟨hrows, hparse⟩ := summarize_ok_elim h
  have hlen := hdrOf_length ds
  have htail : rows.tail = dataRowsOf ds ++ [finRowOf ds] := by
    rw [hrows, List.cons_append, List.tail_cons]
  have hfin_cell : ∀ col, 2 ≤ col → col < 2 + (sortDesc (getIssues ds)).length →
      (finRowOf ds).getD col "" = ItoaInt (colSumP (dataRowsOf ds) col) := by
    intro col h2 hcol
    have hi : col - 2 < (hdrOf ds).length - 2 := by omega
    have hcell := finRowOf_cell ds (col - 2) hi
    rw [show col - 2 + 2 = col by omega] at hcell
    rw [List.getD_eq_get?, hcell, Option.getD_some]
  refine ⟨?_, ?_, ?_, ?_⟩
  · intro r hr
    rw [hrows] at hr
    rcases List.mem_append.mp hr with hr | hr
    · rcases List.mem_cons.mp hr with rfl | hr
      · exact hlen
      · obtain ⟨d, hd, c, hc, rfl⟩ := mem_dataRowsOf.mp hr
        rw [buildRow_length, hlen]
    · rw [List.mem_singleton.mp hr, finRowOf_length, hlen]
  · rw [hrows]
    rfl
  · intro r hr col h2 hcol
    rw [htail] at hr
    rcases List.mem_append.mp hr with hr | hr
    · have := hparse r hr (col - 2) (by omega)
      rw [show col - 2 + 2 = col by omega] at this
      exact this
    · rw [List.mem_singleton.mp hr, hfin_cell col h2 hcol, Atoi_ItoaInt]
      rfl
  · intro hD hC r hr col h2 hcol
    rw [htail] at hr
    rcases List.mem_append.mp hr with hr | hr
    · obtain ⟨v, hv⟩ := dataRow_cell_value ds hD hC r hr (col - 2) (by omega)
      rw [show col - 2 + 2 = col by omega] at hv
      rw [hv, Option.getD_some]
      exact Int.natCast_nonneg v
    · rw [List.mem_singleton.mp hr, hfin_cell col h2 hcol, Atoi_ItoaInt,
        Option.getD_some]
      rw [colSumP]
      refine List.sum_nonneg ?_
      intro x hx
      obtain ⟨r', hr', hxr⟩ := List.mem_map.mp hx
      obtain ⟨v, hv⟩ := dataRow_cell_value ds hD hC r' hr' (col - 2) (by omega)
      rw [show col - 2 + 2 = col by omega] at hv
      rw [← hxr, hv, Option.getD_some]
      exact Int.natCast_nonneg v

/-- Witness for `c6_amended` on a concrete debate list. -/
theorem c6_amended_witness :
    ([["Date", "Candidate", "Tax"], ["2022", "C", "3"], ["", "Total", "3"]] :
      List (List String)).head? = some (hdrOf [⟨"2022", [⟨"C", [("Tax", 3)]⟩]⟩]) :=
  (c6_amended [⟨"2022", [⟨"C", [("Tax", 3)]⟩]⟩] _ (by decide)).2.1

/-! ## Index-map and parser lemmas -/

theorem addIndex_props {bound : Nat} :
    ∀ (m : List (String × List Nat)) (key : String) (pos : Nat),
      (∀ e ∈ m, e.2 ≠ [] ∧ ∀ p ∈ e.2, p < bound) → pos < bound →
      ∀ e ∈ addIndex m key pos, e.2 ≠ [] ∧ ∀ p ∈ e.2, p < bound
  | [], key, pos, _, hpos => by
    intro e he
    rw [addIndex, List.mem_singleton] at he
    subst he
    refine ⟨by simp, ?_⟩
    intro p hp
    rw [List.mem_singleton] at hp
    subst hp
    exact hpos
  | (k, ps) :: rest, key, pos, h, hpos => by
    intro e he
    rw [addIndex] at he
    by_cases hk : k = key
    · rw [if_pos hk] at he
      rcases List.mem_cons.mp he with rfl | he'
      · obtain ⟨_, hb⟩ := h (k, ps) (List.mem_cons_self _ _)
        refine ⟨by simp, ?_⟩
        intro p hp
        rcases List.mem_append.mp hp with hp | hp
        · exact hb p hp
        · rw [List.mem_singleton] at hp
          subst hp
          exact hpos
      · exact h e (List.mem_cons_of_mem _ he')
    · rw [if_neg hk] at he
      rcases List.mem_cons.mp he with rfl | he'
      · exact h (k, ps) (List.mem_cons_self _ _)
      · exact addIndex_props rest key pos
          (fun e' he'' => h e' (List.mem_cons_of_mem _ he'')) hpos e he'

theorem buildIndexMapAux_props :
    ∀ (hs : List String) (pos : Nat) (m : List (String × List Nat)) (bound : Nat),
      pos + hs.length ≤ bound →
      (∀ e ∈ m, e.2 ≠ [] ∧ ∀ p ∈ e.2, p < bound) →
      ∀ e ∈ buildIndexMapAux pos m hs, e.2 ≠ [] ∧ ∀ p ∈ e.2, p < bound
  | [], pos, m, bound, _, hm => fun e he => hm e he
  | hstr :: hs, pos, m, bound, hb, hm => by
    rw [List.length_cons] at hb
    intro e he
    rw [buildIndexMapAux] at he
    refine buildIndexMapAux_props hs (pos + 1) _ bound (by omega) ?_ e he
    exact addIndex_props m (sanitizeColumnName hstr) pos hm (by omega)

theorem buildIndexMap_props (hdr : List String) :
    ∀ e ∈ buildIndexMap hdr, e.2 ≠ [] ∧ ∀ p ∈ e.2, p < hdr.length := by
  intro e he
  refine buildIndexMapAux_props hdr 0 [] hdr.length (by omega) ?_ e he
  intro e' he'
  exact absurd he' (List.not_mem_nil e')

theorem candFold_isSome (row : List String) :
    ∀ (idx : List Nat) (ic : List (String × Nat)),
      (∀ p ∈ idx, p < row.length) → (candFold row idx ic).isSome
  | [], ic, _ => rfl
  | i :: rest, ic, h => by
    rw [candFold]
    cases hg : row.get? i with
    | none =>
      have h1 := List.get?_eq_none.mp hg
      have h2 := h i (List.mem_cons_self _ _)
      exact absurd h1 (by omega)
    | some cell =>
      exact candFold_isSome row rest _ (fun p hp => h p (List.mem_cons_of_mem _ hp))

theorem parseRowWith_cons (row : List String) (k : String) (idx : List Nat)
    (rest : List (String × List Nat)) (d : Debate) :
    parseRowWith row ((k, idx) :: rest) d =
      if containsDate k then
        if 1 < idx.length then .err dupDateMsg
        else
          match idx with
          | [] => .panicked
          | i :: _ =>
            match row.get? i with
            | none => .panicked
            | some v => parseRowWith row rest { d with Date := v }
      else
        match candFold row idx [] with
        | none => .panicked
        | some ic =>
          parseRowWith row rest
            { d with Candidates := d.Candidates ++ [⟨k, ic⟩] } := rfl

theorem parseRowWith_not_panic (row : List String) :
    ∀ (im : List (String × List Nat)) (d : Debate),
      (∀ e ∈ im, e.2 ≠ [] ∧ ∀ p ∈ e.2, p < row.length) →
      parseRowWith row im d ≠ PResult.panicked
  | [], d, _ => fun hc => PResult.noConfusion hc
  | (k, idx) :: rest, d, h => by
    obtain ⟨hne, hbound⟩ := h (k, idx) (List.mem_cons_self _ _)
    have hrest : ∀ e ∈ rest, e.2 ≠ [] ∧ ∀ p ∈ e.2, p < row.length :=
      fun e he => h e (List.mem_cons_of_mem _ he)
    rw [parseRowWith_cons]
    by_cases hd : containsDate k = true
    · rw [if_pos hd]
      by_cases hl : 1 < idx.length
      · rw [if_pos hl]
        exact fun hc => PResult.noConfusion hc
      · rw [if_neg hl]
        cases idx with
        | nil => exact absurd rfl hne
        | cons i idxrest =>
          show (match row.get? i with
            | none => PResult.panicked
            | some v => parseRowWith row rest { d with Date := v }) ≠ PResult.panicked
          cases hg : row.get? i with
          | none =>
            have h1 := List.get?_eq_none.mp hg
            have h2 := hbound i (List.mem_cons_self _ _)
            exact absurd h1 (by omega)
          | some v =>
            exact parseRowWith_not_panic row rest _ hrest
    · rw [if_neg hd]
      cases hcf : candFold row idx [] with
      | none =>
        have := candFold_isSome row idx [] hbound
        rw [hcf] at this
        exact absurd this (by simp)
      | some ic =>
        exact parseRowWith_not_panic row rest _ hrest

theorem parseDebates_not_panic (im : List (String × List Nat)) :
    ∀ rows : List (List String),
      (∀ r ∈ rows, ∀ e ∈ im, e.2 ≠ [] ∧ ∀ p ∈ e.2, p < r.length) →
      parseDebates im rows ≠ PResult.panicked
  | [], _ => fun hc => PResult.noConfusion hc
  | r :: rs, h => by
    rw [parseDebates]
    cases hp : parseRowWith r im ⟨"", []⟩ with
    | ok d =>
      cases hrec : parseDebates im rs with
      | ok ds => exact fun hc => PResult.noConfusion hc
      | err m => exact fun hc => PResult.noConfusion hc
      | panicked =>
        exact absurd hrec
          (parseDebates_not_panic im rs (fun r' hr' => h r' (List.mem_cons_of_mem _ hr')))
    | err m => exact fun hc => PResult.noConfusion hc
    | panicked =>
      exact absurd hp
        (parseRowWith_not_panic r im ⟨"", []⟩ (h r (List.mem_cons_self _ _)))

theorem parseRowWith_err (row : List String) :
    ∀ (im : List (String × List Nat)) (d : Debate),
      (∀ e ∈ im, e.2 ≠ [] ∧ ∀ p ∈ e.2, p < row.length) →
      (∃ e ∈ im, containsDate e.1 = true ∧ 2 ≤ e.2.length) →
      parseRowWith row im d = .err dupDateMsg
  | [], d, _, hex => by
    rcases hex with ⟨e, he, _⟩
    exact absurd he (List.not_mem_nil e)
  | (k, idx) :: rest, d, h, hex => by
    obtain ⟨hne, hbound⟩ := h (k, idx) (List.mem_cons_self _ _)
    have hrest : ∀ e ∈ rest, e.2 ≠ [] ∧ ∀ p ∈ e.2, p < row.length :=
      fun e he => h e (List.mem_cons_of_mem _ he)
    rw [parseRowWith_cons]
    by_cases hd : containsDate k = true
    · rw [if_pos hd]
      by_cases hl : 1 < idx.length
      · rw [if_pos hl]
      · rw [if_neg hl]
        have hex' : ∃ e ∈ rest, containsDate e.1 = true ∧ 2 ≤ e.2.length := by
          rcases hex with ⟨e, he, hprop⟩
          rcases List.mem_cons.mp he with rfl | he'
          · have h2le : 2 ≤ idx.length := hprop.2
            exact absurd h2le (by omega)
          · exact ⟨e, he', hprop⟩
        cases idx with
        | nil => exact absurd rfl hne
        | cons i idxrest =>
          show (match row.get? i with
            | none => PResult.panicked
            | some v => parseRowWith row rest { d with Date := v }) = .err dupDateMsg
          cases hg : row.get? i with
          | none =>
            have h1 := List.get?_eq_none.mp hg
            have h2 := hbound i (List.mem_cons_self _ _)
            exact absurd h1 (by omega)
          | some v =>
            exact parseRowWith_err row rest _ hrest hex'
    · rw [if_neg hd]
      have hex' : ∃ e ∈ rest, containsDate e.1 = true ∧ 2 ≤ e.2.length := by
        rcases hex with ⟨e, he, hprop⟩
        rcases List.mem_cons.mp he with rfl | he'
        · exact absurd hprop.1 hd
        · exact ⟨e, he', hprop⟩
      cases hcf : candFold row idx [] with
      | none =>
        have := candFold_isSome row idx [] hbound
        rw [hcf] at this
        exact absurd this (by simp)
      | some ic =>
        exact parseRowWith_err row rest _ hrest hex'

theorem parseRowWith_date_of_not (row : List String) :
    ∀ (im : List (String × List Nat)) (d d' : Debate),
      (∀ e ∈ im, containsDate e.1 = false) →
      parseRowWith row im d = .ok d' → d'.Date = d.Date
  | [], d, d', _, h => by
    have hd : d = d' := PResult.ok.inj h
    rw [hd]
  | (k, idx) :: rest, d, d', hall, h => by
    have hd : containsDate k = false := hall (k, idx) (List.mem_cons_self _ _)
    rw [parseRowWith_cons, if_neg (by simp [hd])] at h
    cases hcf : candFold row idx [] with
    | none =>
      rw [hcf] at h
      exact absurd h (by simp)
    | some ic =>
      rw [hcf] at h
      exact parseRowWith_date_of_not row rest
        { d with Candidates := d.Candidates ++ [⟨k, ic⟩] } d'
        (fun e he => hall e (List.mem_cons_of_mem _ he)) h

theorem parseRowWith_date_unique (row : List String) :
    ∀ (im : List (String × List Nat)) (d d' : Debate) (k : String) (i : Nat),
      im.filter (fun e => containsDate e.1) = [(k, [i])] →
      parseRowWith row im d = .ok d' →
      row.get? i = some d'.Date
  | [], d, d', k, i, hf, _ => absurd hf (by simp)
  | (k', idx') :: rest, d, d', k, i, hf, h => by
    by_cases hd : containsDate k' = true
    · rw [List.filter_cons_of_pos (by simpa using hd)] at hf
      injection hf with h1 h2
      injection h1 with hk hidx
      subst hidx
      rw [parseRowWith_cons, if_pos hd,
        if_neg (by simp : ¬ 1 < ([i] : List Nat).length)] at h
      have h' : (match row.get? i with
          | none => PResult.panicked
          | some v => parseRowWith row rest { d with Date := v }) = PResult.ok d' := h
      cases hg : row.get? i with
      | none =>
        rw [hg] at h'
        exact absurd h' (by simp)
      | some v =>
        rw [hg] at h'
        have hrest_nodate : ∀ e ∈ rest, containsDate e.1 = false := by
          intro e he
          by_contra hcon
          have hmem : e ∈ rest.filter (fun e => containsDate e.1) :=
            List.mem_filter.mpr ⟨he, by simpa using hcon⟩
          rw [h2] at hmem
          exact absurd hmem (List.not_mem_nil e)
        have hDate := parseRowWith_date_of_not row rest { d with Date := v } d'
          hrest_nodate h'
        rw [hDate]
    · rw [List.filter_cons_of_neg (by simp [hd])] at hf
      rw [parseRowWith_cons, if_neg (by simp [hd])] at h
      cases hcf : candFold row idx' [] with
      | none =>
        rw [hcf] at h
        exact absurd h (by simp)
      | some ic =>
        rw [hcf] at h
        exact parseRowWith_date_unique row rest _ d' k i hf h

theorem parseDebates_forall2 (im : List (String × List Nat)) :
    ∀ (rows : List (List String)) (ds : List Debate),
      parseDebates im rows = .ok ds →
      List.Forall₂ (fun (row : List String) (d : Debate) =>
        parseRowWith row im ⟨"", []⟩ = .ok d) rows ds
  | [], ds, h => by
    have : ([] : List Debate) = ds := PResult.ok.inj h
    rw [← this]
    exact List.Forall₂.nil
  | r :: rs, ds, h => by
    rw [parseDebates] at h
    cases hp : parseRowWith r im ⟨"", []⟩ with
    | ok d =>
      rw [hp] at h
      cases hrec : parseDebates im rs with
      | ok ds2 =>
        rw [hrec] at h
        have hcons : PResult.ok (α := List Debate) (d :: ds2) = .ok ds := h
        have : d :: ds2 = ds := PResult.ok.inj hcons
        rw [← this]
        exact List.Forall₂.cons hp (parseDebates_forall2 im rs ds2 hrec)
      | err m =>
        rw [hrec] at h
        exact absurd h (by simp)
      | panicked =>
        rw [hrec] at h
        exact absurd h (by simp)
    | err m =>
      rw [hp] at h
      exact absurd h (by simp)
    | panicked =>
      rw [hp] at h
      exact absurd h (by simp)

/-- C7 counterexample: two header columns whose normalized names both
contain "Date" but differ ("Date" and "StartDate") do NOT trigger the
duplicate-date error — each key maps to one position, so the per-key
`len(index) > 1` check never fires; the parse succeeds (and the
later-iterated date key silently wins, producing Date = "b" and no
candidates). -/
theorem c7_counterexample :
    parseCsvData [["Date", "StartDate"], ["a", "b"]] = PResult.ok [⟨"b", []⟩] ∧
    containsDate (sanitizeColumnName "Date") = true ∧
    containsDate (sanitizeColumnName "StartDate") = true := by
  exact ⟨by decide, by decide, by decide⟩

/-- C7 (amended): the parser fails with the duplicate-date
DataIntegrityError exactly when some single normalized key containing
"Date" groups two or more columns, and at least one data row (long
enough to reach the check) is present; on success, when exactly one
index-map entry has a date-bearing key and it holds a single column
position, that column's cell value becomes `Debate.Date` for each data
row. -/
theorem c7_amended :
    (∀ (hdr r : List String) (rs : List (List String)),
      (∀ row ∈ r :: rs, hdr.length ≤ row.length) →
      (∃ e ∈ buildIndexMap hdr, containsDate e.1 = true ∧ 2 ≤ e.2.length) →
      parseCsvData (hdr :: r :: rs) = .err dupDateMsg) ∧
    (∀ (hdr : List String) (rows : List (List String)) (ds : List Debate)
        (k : String) (i : Nat),
      (buildIndexMap hdr).filter (fun e => containsDate e.1) = [(k, [i])] →
      parseCsvData (hdr :: rows) = .ok ds →
      List.Forall₂ (fun (row : List String) (d : Debate) =>
        row.get? i = some d.Date) rows ds) := by
  constructor
  · intro hdr r rs hlen hex
    rw [parseCsvData, parseDebates]
    have hprops : ∀ e ∈ buildIndexMap hdr, e.2 ≠ [] ∧ ∀ p ∈ e.2, p < r.length := by
      intro e he
      obtain ⟨hne, hb⟩ := buildIndexMap_props hdr e he
      exact ⟨hne, fun p hp =>
        lt_of_lt_of_le (hb p hp) (hlen r (List.mem_cons_self _ _))⟩
    rw [parseRowWith_err r (buildIndexMap hdr) ⟨"", []⟩ hprops hex]
  · intro hdr rows ds k i hf hok
    rw [parseCsvData] at hok
    exact (parseDebates_forall2 (buildIndexMap hdr) rows ds hok).imp
      (fun row d hp =>
        parseRowWith_date_unique row (buildIndexMap hdr) ⟨"", []⟩ d k i hf hp)

/-- Witness for `c7_amended`: a header whose two columns normalize to the
same date-bearing name fails on the first data row. -/
theorem c7_amended_witness :
    parseCsvData [["Date [1]", "Date [2]"], ["a", "b"]] = .err dupDateMsg :=
  c7_amended.1 ["Date [1]", "Date [2]"] ["a", "b"] [] (by decide) (by decide)

/-- C10 counterexample: the stated precondition is neither necessary nor
tight.  With header ["Date [1]", "Date [2]", "A"] and the one-cell data
row ["x"], the row has fewer cells than the highest header column index
(1 < 2), yet the parser terminates normally with the duplicate-date
error value instead of an out-of-range access. -/
theorem c10_counterexample :
    parseCsvData [["Date [1]", "Date [2]", "A"], ["x"]] = .err dupDateMsg ∧
    (["x"] : List String).length = 1 ∧
    (["Date [1]", "Date [2]", "A"] : List String).length - 1 = 2 ∧
    parseCsvData [["A", "B"], ["x"]] = PResult.panicked := by
  exact ⟨by decide, by decide, by decide, by decide⟩

/-- C10 (amended): `parseCsvData` indexes row 0 unconditionally, so on an
empty input it fails with an out-of-range access (modeled `panicked`)
rather than returning an error value; and whenever every data row has at
least as many cells as the header (hence more than the highest grouped
column index), no out-of-range access occurs — though termination without
a panic can also happen on shorter rows when the duplicate-date error
aborts the row first. -/
theorem c10_amended :
    parseCsvData [] = PResult.panicked ∧
    ∀ (hdr : List String) (rows : List (List String)),
      (∀ r ∈ rows, hdr.length ≤ r.length) →
      parseCsvData (hdr :: rows) ≠ PResult.panicked := by
  refine ⟨rfl, ?_⟩
  intro hdr rows hlen
  rw [parseCsvData]
  refine parseDebates_not_panic (buildIndexMap hdr) rows ?_
  intro r hr e he
  obtain ⟨hne, hb⟩ := buildIndexMap_props hdr e he
  exact ⟨hne, fun p hp => lt_of_lt_of_le (hb p hp) (hlen r hr)⟩

/-- Witness for `c10_amended`: a rectangular two-column input parses
without any out-of-range access. -/
theorem c10_amended_witness :
    parseCsvData [["Date", "A"], ["2020", "Tax"]] ≠ PResult.panicked :=
  c10_amended.2 ["Date", "A"] [["2020", "Tax"]] (by decide)

/-! ## Iteration-order lemmas for the pipeline -/

theorem parseRowWith_candidates (row : List String) :
    ∀ (im : List (String × List Nat)) (d d' : Debate),
      parseRowWith row im d = .ok d' →
      d'.Candidates = d.Candidates ++
        (im.filter (fun e => !containsDate e.1)).map
          (fun e => ⟨e.1, (candFold row e.2 []).getD []⟩)
  | [], d, d', h => by
    have he : d = d' := PResult.ok.inj h
    rw [← he]
    simp
  | (k, idx) :: rest, d, d', h => by
    rw [parseRowWith_cons] at h
    by_cases hd : containsDate k = true
    · rw [if_pos hd] at h
      by_cases hl : 1 < idx.length
      · rw [if_pos hl] at h
        exact absurd h (by simp)
      · rw [if_neg hl] at h
        cases idx with
        | nil =>
          have h' : PResult.panicked = PResult.ok d' := h
          exact absurd h' (by simp)
        | cons i idxrest =>
          have h' : (match row.get? i with
            | none => PResult.panicked
            | some v => parseRowWith row rest { d with Date := v }) = PResult.ok d' := h
          cases hg : row.get? i with
          | none =>
            rw [hg] at h'
            exact absurd h' (by simp)
          | some v =>
            rw [hg] at h'
            have hrec := parseRowWith_candidates row rest { d with Date := v } d' h'
            rw [hrec, List.filter_cons_of_neg (by simp [hd])]
    · rw [if_neg hd] at h
      cases hcf : candFold row idx [] with
      | none =>
        rw [hcf] at h
        exact absurd h (by simp)
      | some ic =>
        rw [hcf] at h
        have hrec := parseRowWith_candidates row rest
          { d with Candidates := d.Candidates ++ [⟨k, ic⟩] } d' h
        rw [hrec, List.filter_cons_of_pos (by simp [hd])]
        simp [hcf, List.append_assoc]

theorem parseRowWith_ok_date_entry (row : List String) :
    ∀ (im : List (String × List Nat)) (d d' : Debate),
      parseRowWith row im d = .ok d' →
      ∀ e ∈ im, containsDate e.1 = true →
        ∃ i v, e.2 = [i] ∧ row.get? i = some v
  | [], d, d', _ => fun e he _ => absurd he (List.not_mem_nil e)
  | (k, idx) :: rest, d, d', h => by
    rw [parseRowWith_cons] at h
    intro e he hdate
    by_cases hd : containsDate k = true
    · rw [if_pos hd] at h
      by_cases hl : 1 < idx.length
      · rw [if_pos hl] at h
        exact absurd h (by simp)
      · rw [if_neg hl] at h
        cases idx with
        | nil =>
          have h' : PResult.panicked = PResult.ok d' := h
          exact absurd h' (by simp)
        | cons i idxrest =>
          have h' : (match row.get? i with
            | none => PResult.panicked
            | some v => parseRowWith row rest { d with Date := v }) = PResult.ok d' := h
          cases hg : row.get? i with
          | none =>
            rw [hg] at h'
            exact absurd h' (by simp)
          | some v =>
            rw [hg] at h'
            rcases List.mem_cons.mp he with rfl | he'
            · cases idxrest with
              | nil => exact ⟨i, v, rfl, hg⟩
              | cons a as =>
                exact absurd
                  (show 1 < (i :: a :: as).length by
                    rw [List.length_cons, List.length_cons]; omega) hl
            · exact parseRowWith_ok_date_entry row rest { d with Date := v } d' h' e he' hdate
    · rw [if_neg hd] at h
      cases hcf : candFold row idx [] with
      | none =>
        rw [hcf] at h
        exact absurd h (by simp)
      | some ic =>
        rw [hcf] at h
        rcases List.mem_cons.mp he with rfl | he'
        · exact absurd hdate hd
        · exact parseRowWith_ok_date_entry row rest
            { d with Candidates := d.Candidates ++ [⟨k, ic⟩] } d' h e he' hdate

theorem parseRow_relate {row : List String} {im1 im2 : List (String × List Nat)}
    {d1 d2 : Debate}
    (hperm : im1.Perm im2)
    (hdate : (im1.filter (fun e => containsDate e.1)).length ≤ 1)
    (h1 : parseRowWith row im1 ⟨"", []⟩ = .ok d1)
    (h2 : parseRowWith row im2 ⟨"", []⟩ = .ok d2) :
    d1.Date = d2.Date ∧ d1.Candidates.Perm d2.Candidates := by
  have hpermf : (im1.filter (fun e => containsDate e.1)).Perm
      (im2.filter (fun e => containsDate e.1)) := hperm.filter _
  constructor
  · cases hflt : im1.filter (fun e => containsDate e.1) with
    | nil =>
      rw [hflt] at hpermf
      have hflt2 : im2.filter (fun e => containsDate e.1) = [] :=
        hpermf.symm.eq_nil
      have e1 := parseRowWith_date_of_not row im1 ⟨"", []⟩ d1
        (fun e he => by
          by_contra hcon
          have hmem : e ∈ im1.filter (fun e => containsDate e.1) :=
            List.mem_filter.mpr ⟨he, by simpa using hcon⟩
          rw [hflt] at hmem
          exact absurd hmem (List.not_mem_nil e)) h1
      have e2 := parseRowWith_date_of_not row im2 ⟨"", []⟩ d2
        (fun e he => by
          by_contra hcon
          have hmem : e ∈ im2.filter (fun e => containsDate e.1) :=
            List.mem_filter.mpr ⟨he, by simpa using hcon⟩
          rw [hflt2] at hmem
          exact absurd hmem (List.not_mem_nil e)) h2
      rw [e1, e2]
    | cons x xs =>
      have hxs : xs = [] := by
        rw [hflt, List.length_cons] at hdate
        rw [← List.length_eq_zero]
        omega
      subst hxs
      have hxmem : x ∈ im1 :=
        List.mem_of_mem_filter (hflt ▸ List.mem_cons_self x [])
      have hxdate : containsDate x.1 = true := by
        have := List.of_mem_filter (hflt ▸ List.mem_cons_self x [])
        simpa using this
      obtain ⟨i, v, hx2, hgi⟩ := parseRowWith_ok_date_entry row im1 ⟨"", []⟩ d1 h1 x hxmem hxdate
      have hx : x = (x.1, [i]) := by
        rw [← hx2]
      have hflt1 : im1.filter (fun e => containsDate e.1) = [(x.1, [i])] := by
        rw [hflt, hx]
      have hflt2 : im2.filter (fun e => containsDate e.1) = [(x.1, [i])] := by
        rw [hflt1] at hpermf
        exact List.perm_singleton.mp hpermf.symm
      have u1 := parseRowWith_date_unique row im1 ⟨"", []⟩ d1 x.1 i hflt1 h1
      have u2 := parseRowWith_date_unique row im2 ⟨"", []⟩ d2 x.1 i hflt2 h2
      rw [u1] at u2
      exact Option.some.inj u2
  · have c1 := parseRowWith_candidates row im1 ⟨"", []⟩ d1 h1
    have c2 := parseRowWith_candidates row im2 ⟨"", []⟩ d2 h2
    rw [c1, c2]
    show ([] ++ _ : List Candidate).Perm ([] ++ _)
    rw [List.nil_append, List.nil_append]
    exact (hperm.filter _).map _

theorem parseDebates_relate {im1 im2 : List (String × List Nat)}
    (hperm : im1.Perm im2)
    (hdate : (im1.filter (fun e => containsDate e.1)).length ≤ 1) :
    ∀ (rows : List (List String)) (ds1 ds2 : List Debate),
      parseDebates im1 rows = .ok ds1 →
      parseDebates im2 rows = .ok ds2 →
      List.Forall₂ (fun (d1 d2 : Debate) =>
        d1.Date = d2.Date ∧ d1.Candidates.Perm d2.Candidates) ds1 ds2
  | [], ds1, ds2, h1, h2 => by
    have e1 : ([] : List Debate) = ds1 := PResult.ok.inj h1
    have e2 : ([] : List Debate) = ds2 := PResult.ok.inj h2
    rw [← e1, ← e2]
    exact List.Forall₂.nil
  | r :: rs, ds1, ds2, h1, h2 => by
    rw [parseDebates] at h1 h2
    cases hp1 : parseRowWith r im1 ⟨"", []⟩ with
    | err m => rw [hp1] at h1; exact absurd h1 (by simp)
    | panicked => rw [hp1] at h1; exact absurd h1 (by simp)
    | ok d1 =>
      rw [hp1] at h1
      cases hrec1 : parseDebates im1 rs with
      | err m => rw [hrec1] at h1; exact absurd h1 (by simp)
      | panicked => rw [hrec1] at h1; exact absurd h1 (by simp)
      | ok t1 =>
        rw [hrec1] at h1
        cases hp2 : parseRowWith r im2 ⟨"", []⟩ with
        | err m => rw [hp2] at h2; exact absurd h2 (by simp)
        | panicked => rw [hp2] at h2; exact absurd h2 (by simp)
        | ok d2 =>
          rw [hp2] at h2
          cases hrec2 : parseDebates im2 rs with
          | err m => rw [hrec2] at h2; exact absurd h2 (by simp)
          | panicked => rw [hrec2] at h2; exact absurd h2 (by simp)
          | ok t2 =>
            rw [hrec2] at h2
            have e1 : d1 :: t1 = ds1 := PResult.ok.inj h1
            have e2 : d2 :: t2 = ds2 := PResult.ok.inj h2
            rw [← e1, ← e2]
            exact List.Forall₂.cons (parseRow_relate hperm hdate hp1 hp2)
              (parseDebates_relate hperm hdate rs t1 t2 hrec1 hrec2)

theorem exists_issue_iff_of_rel :
    ∀ {ds1 ds2 : List Debate},
      List.Forall₂ (fun (d1 d2 : Debate) =>
        d1.Date = d2.Date ∧ d1.Candidates.Perm d2.Candidates) ds1 ds2 →
      ∀ a : String,
        ((∃ d ∈ ds1, ∃ c ∈ d.Candidates, ∃ p ∈ c.IssueCount, a = p.1) ↔
          (∃ d ∈ ds2, ∃ c ∈ d.Candidates, ∃ p ∈ c.IssueCount, a = p.1)) := by
  intro ds1 ds2 hrel
  induction hrel with
  | nil => intro a; simp
  | @cons d1 d2 l1 l2 hpair hrest ih =>
    intro a
    constructor
    · rintro ⟨d, hd, c, hc, hp⟩
      rcases List.mem_cons.mp hd with rfl | hd'
      · exact ⟨d2, List.mem_cons_self _ _, c, hpair.2.mem_iff.mp hc, hp⟩
      · obtain ⟨d', hd'', c', hc', hp'⟩ := (ih a).mp ⟨d, hd', c, hc, hp⟩
        exact ⟨d', List.mem_cons_of_mem _ hd'', c', hc', hp'⟩
    · rintro ⟨d, hd, c, hc, hp⟩
      rcases List.mem_cons.mp hd with rfl | hd'
      · exact ⟨d1, List.mem_cons_self _ _, c, hpair.2.mem_iff.mpr hc, hp⟩
      · obtain ⟨d', hd'', c', hc', hp'⟩ := (ih a).mpr ⟨d, hd', c, hc, hp⟩
        exact ⟨d', List.mem_cons_of_mem _ hd'', c', hc', hp'⟩

theorem sortDesc_getIssues_eq_of_rel {ds1 ds2 : List Debate}
    (hrel : List.Forall₂ (fun (d1 d2 : Debate) =>
      d1.Date = d2.Date ∧ d1.Candidates.Perm d2.Candidates) ds1 ds2) :
    sortDesc (getIssues ds1) = sortDesc (getIssues ds2) := by
  refine sortDesc_eq_of_perm ?_
  rw [List.perm_ext_iff_of_nodup (nodup_getIssues ds1) (nodup_getIssues ds2)]
  intro a
  rw [mem_getIssues, mem_getIssues]
  exact exists_issue_iff_of_rel hrel a

theorem flatMap_rows_perm_of_rel (H : List String) :
    ∀ {l1 l2 : List Debate},
      List.Forall₂ (fun (d1 d2 : Debate) =>
        d1.Date = d2.Date ∧ d1.Candidates.Perm d2.Candidates) l1 l2 →
      (l1.flatMap (fun d => d.Candidates.map
        (fun c => buildRow H d.Date c.Name c.IssueCount))).Perm
      (l2.flatMap (fun d => d.Candidates.map
        (fun c => buildRow H d.Date c.Name c.IssueCount))) := by
  intro l1 l2 hrel
  induction hrel with
  | nil => exact List.Perm.refl _
  | @cons d1 d2 t1 t2 hpair hrest ih =>
    rw [List.flatMap_cons, List.flatMap_cons]
    refine List.Perm.append ?_ ih
    rw [hpair.1]
    exact hpair.2.map _

theorem dataRowsOf_perm_of_rel {ds1 ds2 : List Debate}
    (hrel : List.Forall₂ (fun (d1 d2 : Debate) =>
      d1.Date = d2.Date ∧ d1.Candidates.Perm d2.Candidates) ds1 ds2) :
    (dataRowsOf ds1).Perm (dataRowsOf ds2) := by
  have hhdr : hdrOf ds1 = hdrOf ds2 := by
    rw [hdrOf, hdrOf, sortDesc_getIssues_eq_of_rel hrel]
  unfold dataRowsOf
  rw [hhdr]
  exact flatMap_rows_perm_of_rel (hdrOf ds2) hrel

theorem finRowOf_eq_of_rel {ds1 ds2 : List Debate}
    (hrel : List.Forall₂ (fun (d1 d2 : Debate) =>
      d1.Date = d2.Date ∧ d1.Candidates.Perm d2.Candidates) ds1 ds2) :
    finRowOf ds1 = finRowOf ds2 := by
  have hhdr : hdrOf ds1 = hdrOf ds2 := by
    rw [hdrOf, hdrOf, sortDesc_getIssues_eq_of_rel hrel]
  have hdrows := dataRowsOf_perm_of_rel hrel
  have hsum : ∀ col, colSumP (dataRowsOf ds1) col = colSumP (dataRowsOf ds2) col :=
    fun col => (hdrows.map _).sum_eq
  rw [finRowOf, finRowOf, hhdr]
  exact congrArg (fun t => "" :: "Total" :: t)
    (List.map_congr_left (fun i _ => congrArg ItoaInt (hsum (i + 2))))

/-- C8 counterexample: two iteration orders of the same index map (a
permutation of `buildIndexMap` of the header) give different pipeline
outputs on the same input — the candidate rows within the debate come out
in the iteration order, so the output is not a function of the input
alone. -/
theorem c8_counterexample :
    ([("Date", [0]), ("A", [1]), ("B", [2])] :
        List (String × List Nat)).Perm
      [("Date", [0]), ("B", [2]), ("A", [1])] ∧
    buildIndexMap ["Date", "A", "B"] = [("Date", [0]), ("A", [1]), ("B", [2])] ∧
    pipelineWith [("Date", [0]), ("A", [1]), ("B", [2])]
        [["Date", "A", "B"], ["d", "x", "y"]] ≠
      pipelineWith [("Date", [0]), ("B", [2]), ("A", [1])]
        [["Date", "A", "B"], ["d", "x", "y"]] := by
  exact ⟨by decide, by decide, by decide⟩

/-- C8 (amended): for a fixed map iteration order the pipeline is a pure
function of the input, but byte-identical output across runs is not
guaranteed: candidate-row order follows the index map's iteration order.
What is invariant under any permutation of the iteration order (given at
most one date-bearing key) is the header row, the multiset of rows, and
the final Total row. -/
theorem c8_amended (input : List (List String)) (im1 im2 : List (String × List Nat))
    (rows1 rows2 : List (List String))
    (hperm : im1.Perm im2)
    (hdate : (im1.filter (fun e => containsDate e.1)).length ≤ 1)
    (h1 : pipelineWith im1 input = .ok rows1)
    (h2 : pipelineWith im2 input = .ok rows2) :
    rows1.head? = rows2.head? ∧ rows1.Perm rows2 ∧
      rows1.getLast? = rows2.getLast? := by
  cases input with
  | nil =>
    rw [pipelineWith] at h1
    exact absurd h1 (by simp)
  | cons hd rows =>
    rw [pipelineWith] at h1 h2
    cases hp1 : parseDebates im1 rows with
    | err m => rw [hp1] at h1; exact absurd h1 (by simp)
    | panicked => rw [hp1] at h1; exact absurd h1 (by simp)
    | ok ds1 =>
      rw [hp1] at h1
      have h1' : (match summarize ds1 with
        | Except.ok rws => PResult.ok rws
        | Except.error e => PResult.err e) = PResult.ok rows1 := h1
      cases hs1 : summarize ds1 with
      | error e => rw [hs1] at h1'; exact absurd h1' (by simp)
      | ok r1 =>
        rw [hs1] at h1'
        cases hp2 : parseDebates im2 rows with
        | err m => rw [hp2] at h2; exact absurd h2 (by simp)
        | panicked => rw [hp2] at h2; exact absurd h2 (by simp)
        | ok ds2 =>
          rw [hp2] at h2
          have h2' : (match summarize ds2 with
            | Except.ok rws => PResult.ok rws
            | Except.error e => PResult.err e) = PResult.ok rows2 := h2
          cases hs2 : summarize ds2 with
          | error e => rw [hs2] at h2'; exact absurd h2' (by simp)
          | ok r2 =>
            rw [hs2] at h2'
            have e1 : r1 = rows1 := PResult.ok.inj h1'
            have e2 : r2 = rows2 := PResult.ok.inj h2' 
            subst e1
            subst e2
            have hrel := parseDebates_relate hperm hdate rows ds1 ds2 hp1 hp2
            have hhdr : hdrOf ds1 = hdrOf ds2 := by
              rw [hdrOf, hdrOf, sortDesc_getIssues_eq_of_rel hrel]
            have hdrows := dataRowsOf_perm_of_rel hrel
            have hfin := finRowOf_eq_of_rel hrel
            obtain ⟨hr1, _⟩ := summarize_ok_elim hs1
            obtain ⟨hr2, _⟩ := summarize_ok_elim hs2
            rw [hr1, hr2, hhdr, hfin]
            refine ⟨?_, ?_, ?_⟩
            · rw [List.cons_append, List.cons_append]
              rfl
            · rw [List.cons_append, List.cons_append]
              exact List.Perm.cons _ (hdrows.append_right _)
            · rw [List.getLast?_concat, List.getLast?_concat]

/-- Witness for `c8_amended`: two concrete iteration orders of the same
index map yield outputs with the same header, the same row multiset, and
the same Total row. -/
theorem c8_amended_witness :
    ([["Date", "Candidate", "y", "x"], ["d", "A", "0", "1"], ["d", "B", "1", "0"],
        ["", "Total", "1", "1"]] : List (List String)).head? =
      ([["Date", "Candidate", "y", "x"], ["d", "B", "1", "0"], ["d", "A", "0", "1"],
        ["", "Total", "1", "1"]] : List (List String)).head? ∧
    ([["Date", "Candidate", "y", "x"], ["d", "A", "0", "1"], ["d", "B", "1", "0"],
        ["", "Total", "1", "1"]] : List (List String)).Perm
      [["Date", "Candidate", "y", "x"], ["d", "B", "1", "0"], ["d", "A", "0", "1"],
        ["", "Total", "1", "1"]] ∧
    ([["Date", "Candidate", "y", "x"], ["d", "A", "0", "1"], ["d", "B", "1", "0"],
        ["", "Total", "1", "1"]] : List (List String)).getLast? =
      ([["Date", "Candidate", "y", "x"], ["d", "B", "1", "0"], ["d", "A", "0", "1"],
        ["", "Total", "1", "1"]] : List (List String)).getLast? :=
  c8_amended [["Date", "A", "B"], ["d", "x", "y"]]
    [("Date", [0]), ("A", [1]), ("B", [2])] [("Date", [0]), ("B", [2]), ("A", [1])]
    [["Date", "Candidate", "y", "x"], ["d", "A", "0", "1"], ["d", "B", "1", "0"],
      ["", "Total", "1", "1"]]
    [["Date", "Candidate", "y", "x"], ["d", "B", "1", "0"], ["d", "A", "0", "1"],
      ["", "Total", "1", "1"]]
    (by decide) (by decide) (by decide) (by decide)
